import Mathlib

/-!
Shallow embedding of the memory allocator in `src/allocator.c` (plus the thin
wrappers in `src/allocator_overrides.c`).

Modelling conventions:

* `size_t` values and pointers are `Nat`s reduced modulo `2 ^ 64` exactly where
  the C arithmetic can wrap (additions and subtractions on `size_t` and on
  pointers); `subW`/`% sizeW` mark those spots.
* The mutable global state (`g_region_head`/`g_region_tail`, `g_free_list`,
  `g_allocations`, `g_regions`, and every `struct mem_block` header written into
  the mapped memory) is an explicit `AllocState`.  Block headers are keyed by
  their address; `getBlock`/`setBlock` are the header reads/writes.
* `struct mem_block` and `struct mem_region` are declared in `allocator.h`,
  which is not among the repository sources; their sizes enter the code only
  through `sizeof`, so they are carried as parameters `HB`/`HR` in `AllocCfg`,
  with the concrete values modelled from the spec in `mem_block_sz` /
  `mem_region_sz` below.
* `mmap` is an oracle argument `os : Option Nat`: `none` is a refused mapping,
  `some base` a granted page-aligned mapping (the OS picks the base address).
  `munmap` follows POSIX: it succeeds only on a page-aligned address and a
  nonzero length; its success or failure changes none of the allocator's
  bookkeeping (the C code updates nothing after the call either way).
* C `while` loops over pointer chains become fuel-indexed recursions; fuel
  exhaustion returns the "walk did not finish" answer and is excluded by the
  hypotheses of the theorems that need completed walks.
* Bytes of payload memory are not tracked; `memset` calls are recorded as
  (address, length) events in the result structures so that theorems can talk
  about what was filled.  Freshly mapped memory is zero (`MAP_ANONYMOUS`), so
  headers carved out of a fresh region start with null links.
-/

/-- `2 ^ 64`, the modulus of `size_t` / pointer arithmetic on the target. -/
def sizeW : Nat := 2 ^ 64

/-- C `size_t` subtraction `x - y` (two's-complement wraparound). -/
def subW (x y : Nat) : Nat := (x + (sizeW - y % sizeW)) % sizeW

/-- Modelled from the spec: `sizeof(struct mem_block)`.  `allocator.h` is not in
the sources; the spec lists the block-header fields in this order: monotonic
sequence number, length, free/used flag, tag string — written by
`strcpy(block->name, ...)`, so a 32-byte in-header array as printed by
`print_memory` — doubly-linked region-order neighbors, and a free-list link.
Their natural x86-64 layout is 8 + 8 + 8 + 32 + 8 + 8 + 8 = 80 bytes: the
sequence number at byte offset 0, the length at 8, the flag (an `int` plus
padding) at 16, the tag at 24, the two neighbor links at 56 and 64, and the
free-list link at 72. -/
def mem_block_sz : Nat := 80

/-- Modelled from the spec: `sizeof(struct mem_region)`.  The spec gives the
region attributes (monotonic sequence number, total mapped length, link to the
next region): 8 + 8 + 8 = 24 bytes. -/
def mem_region_sz : Nat := 24

/-- `align(orig_sz, alignment)` from `src/allocator.c:272`:
`new_sz = (orig_sz / alignment) * alignment; if (orig_sz % alignment != 0) new_sz += alignment;`.
The `+=` is `size_t` addition and can wrap; the first product cannot (it is
`≤ orig_sz`). -/
def align (orig_sz alignment : Nat) : Nat :=
  let new_sz := orig_sz / alignment * alignment
  if orig_sz % alignment ≠ 0 then (new_sz + alignment) % sizeW else new_sz

/-- One `struct mem_block` header as laid out in a mapped region.  `addr` is the
header's own address, the three links are nullable pointers.  `region` is the
base address of the owning region: in the C code a block's owning region is the
one whose in-region chain reaches the block, which is exactly how this field is
maintained (set at region creation, inherited by `split_block`). -/
structure MemBlock where
  addr : Nat
  size : Nat
  block_number : Nat
  free : Bool
  name : String
  prev_block : Option Nat
  next_block : Option Nat
  next_free : Option Nat
  region : Nat
deriving DecidableEq, Repr

/-- One `struct mem_region` (plus the mapping's length, which is the `mmap`
argument that determines the region's extent). -/
structure MemRegion where
  base : Nat
  map_sz : Nat
  region_number : Nat
deriving DecidableEq, Repr

/-- The allocator's global state: all block headers currently written in mapped
memory, the region list (oldest first, `g_region_head`/`g_region_tail`), the
free-list head `g_free_list`, and the two counters. -/
structure AllocState where
  blocks : List MemBlock
  regions : List MemRegion
  free_head : Option Nat
  g_allocations : Nat
  g_regions : Nat
deriving DecidableEq, Repr

/-- Read the block header at address `a` (a dereference of a `mem_block *`). -/
def getBlock (st : AllocState) (a : Nat) : Option MemBlock :=
  st.blocks.find? (fun b => b.addr == a)

/-- Write the block header `b` at its address (overwriting whatever header was
there). -/
def setBlock (st : AllocState) (b : MemBlock) : AllocState :=
  { st with blocks := b :: st.blocks.filter (fun c => c.addr != b.addr) }

/-- `block->next_free` read through a possibly stale address; `none` if no
header is at `a`. -/
def nfOf (st : AllocState) (a : Nat) : Option Nat :=
  match getBlock st a with
  | some b => b.next_free
  | none => none

/-- Process-wide configuration: the two header sizes, the page size, and the
two environment variables read per call (`ALLOCATOR_ALGORITHM`;
`ALLOCATOR_SCRIBBLE`, stored as the `atoi` result `scribble_check`). -/
structure AllocCfg where
  HB : Nat
  HR : Nat
  page : Nat
  algo : Option String
  scribble : Nat
deriving DecidableEq, Repr

/-- Result of `split_block`: the updated memory and the returned pointer. -/
structure SplitResult where
  st : AllocState
  ret : Option Nat
deriving DecidableEq, Repr

/-- `split_block(block, size)` from `src/allocator.c:60`.  All size comparisons
and the two subtractions are `size_t` arithmetic; the new header is written at
`(void *) block + (block->size - size)`.  The C code does not initialize the new
header's `name` or `next_free`; the bytes there come from the zero-initialized
anonymous mapping, i.e. empty string and null link (re-split of memory whose
bytes were later used as payload is outside the byte-level scope of this
model). -/
def split_block (cfg : AllocCfg) (st : AllocState) (ba : Option Nat) (size : Nat) : SplitResult :=
  match ba with
  | none => ⟨st, none⟩
  | some a =>
    match getBlock st a with
    | none => ⟨st, none⟩
    | some b =>
      if 0 < size ∧ (size + cfg.HB) % sizeW < b.size then
        let updated_sz := subW b.size size
        if size < cfg.HB + 8 then ⟨st, none⟩
        else if updated_sz < cfg.HB + 8 then ⟨st, none⟩
        else
          let na := (a + updated_sz) % sizeW
          let nb : MemBlock :=
            { addr := na, size := size, block_number := st.g_allocations, free := true,
              name := "", prev_block := some a, next_block := b.next_block,
              next_free := none, region := b.region }
          let st1 := { setBlock st nb with g_allocations := st.g_allocations + 1 }
          let st2 := setBlock st1 { b with next_block := some na, size := updated_sz }
          ⟨st2, some na⟩
      else ⟨st, none⟩

/-- Result of `merge_block`. -/
structure MergeResult where
  st : AllocState
  ret : Option Nat
deriving DecidableEq, Repr

/-- The backward loop of `merge_block` (`src/allocator.c:118`): while the
previous neighbor exists and is free, absorb the current block into it
(`prev->size += block->size; prev->next_block = block->next_block`) and move
left.  A `prev_block` pointer to an address with no header would be a raw
garbage dereference in C; the walk stops there in the model. -/
def mergeBack (st : AllocState) (a : Nat) : Nat → AllocState × Nat
  | 0 => (st, a)
  | fuel + 1 =>
    match getBlock st a with
    | none => (st, a)
    | some b =>
      match b.prev_block with
      | none => (st, a)
      | some pa =>
        match getBlock st pa with
        | none => (st, a)
        | some pb =>
          if pb.free then
            mergeBack
              (setBlock st { pb with size := (pb.size + b.size) % sizeW, next_block := b.next_block })
              pa fuel
          else (st, a)

/-- The forward loop of `merge_block` (`src/allocator.c:126`): while the next
neighbor exists and is free, add the current block's size into it and redirect
its `prev_block` (`next->size += block->size; next->prev_block = block->prev_block`),
then continue from that neighbor. -/
def mergeFwd (st : AllocState) (a : Nat) : Nat → AllocState × Nat
  | 0 => (st, a)
  | fuel + 1 =>
    match getBlock st a with
    | none => (st, a)
    | some b =>
      match b.next_block with
      | none => (st, a)
      | some na =>
        match getBlock st na with
        | none => (st, a)
        | some nb =>
          if nb.free then
            mergeFwd
              (setBlock st { nb with size := (nb.size + b.size) % sizeW, prev_block := b.prev_block })
              na fuel
          else (st, a)

/-- `merge_block(block)` from `src/allocator.c:112`: null result on a used
block, otherwise the backward loop followed by the forward loop, returning the
final accumulator block. -/
def merge_block (st : AllocState) (ba : Nat) (fuel : Nat) : MergeResult :=
  match getBlock st ba with
  | none => ⟨st, none⟩
  | some b =>
    if b.free then
      let p := mergeBack st ba fuel
      let q := mergeFwd p.1 p.2 fuel
      ⟨q.1, some q.2⟩
    else ⟨st, none⟩

/-- The walk of `first_fit` (`src/allocator.c:144`) from free-list node `cur`:
return the first block with `curr->size >= size`. -/
def first_fitAux (st : AllocState) (size : Nat) : Option Nat → Nat → Option Nat
  | none, _ => none
  | some _, 0 => none
  | some a, fuel + 1 =>
    match getBlock st a with
    | none => none
    | some b => if size ≤ b.size then some a else first_fitAux st size b.next_free fuel

/-- `first_fit(size)` from `src/allocator.c:144`. -/
def first_fit (st : AllocState) (size : Nat) (fuel : Nat) : Option Nat :=
  first_fitAux st size st.free_head fuel

/-- The walk of `worst_fit` (`src/allocator.c:166`), carrying
`largest_free_region` as (address, size): a qualifying block replaces the
candidate when `largest_free_region->size <= curr->size`. -/
def worst_fitAux (st : AllocState) (size : Nat) :
    Option Nat → Option (Nat × Nat) → Nat → Option Nat
  | none, best, _ => best.map (·.1)
  | some _, _, 0 => none
  | some a, best, fuel + 1 =>
    match getBlock st a with
    | none => none
    | some b =>
      let best1 :=
        if size ≤ b.size then
          match best with
          | none => some (a, b.size)
          | some (ba, bs) => if bs ≤ b.size then some (a, b.size) else some (ba, bs)
        else best
      worst_fitAux st size b.next_free best1 fuel

/-- `worst_fit(size)` from `src/allocator.c:166`. -/
def worst_fit (st : AllocState) (size : Nat) (fuel : Nat) : Option Nat :=
  worst_fitAux st size st.free_head none fuel

/-- The walk of `best_fit` (`src/allocator.c:191`), carrying
`perfect_free_region`: a qualifying block replaces the candidate when
`perfect_free_region->size >= curr->size`. -/
def best_fitAux (st : AllocState) (size : Nat) :
    Option Nat → Option (Nat × Nat) → Nat → Option Nat
  | none, best, _ => best.map (·.1)
  | some _, _, 0 => none
  | some a, best, fuel + 1 =>
    match getBlock st a with
    | none => none
    | some b =>
      let best1 :=
        if size ≤ b.size then
          match best with
          | none => some (a, b.size)
          | some (ba, bs) => if b.size ≤ bs then some (a, b.size) else some (ba, bs)
        else best
      best_fitAux st size b.next_free best1 fuel

/-- `best_fit(size)` from `src/allocator.c:191`. -/
def best_fit (st : AllocState) (size : Nat) (fuel : Nat) : Option Nat :=
  best_fitAux st size st.free_head none fuel

/-- The unlink-by-address-search loop of `reuse` (`src/allocator.c:241`):
walk the free list; wherever `curr->next_free == reused_block`, redirect it to
`reused_block->next_free`, then advance through the (possibly just updated)
`curr->next_free`. -/
def unlinkLoop (target : Nat) : AllocState → Option Nat → Nat → AllocState
  | st, _, 0 => st
  | st, none, _ => st
  | st, some c, fuel + 1 =>
    match getBlock st c with
    | none => st
    | some cb =>
      if cb.next_free = some target then
        unlinkLoop target (setBlock st { cb with next_free := nfOf st target }) (nfOf st target) fuel
      else
        unlinkLoop target st cb.next_free fuel

/-- Result of `reuse`. -/
structure ReuseResult where
  st : AllocState
  ret : Option Nat
deriving DecidableEq, Repr

/-- `reuse(size)` from `src/allocator.c:215`: dispatch on `ALLOCATOR_ALGORITHM`
(default `"first_fit"`, unknown value finds nothing), then on a hit try to split
off the tail, unlink the reused block from the free list, push the split-off
tail (if any) onto the free-list head, and mark the reused block used.  In the
`g_free_list == NULL` push branch the C code installs the tail as the new head
without writing its `next_free`. -/
def reuse (cfg : AllocCfg) (st : AllocState) (size : Nat) (fuel : Nat) : ReuseResult :=
  let algo := cfg.algo.getD "first_fit"
  let cand : Option Nat :=
    if algo = "first_fit" then first_fit st size fuel
    else if algo = "best_fit" then best_fit st size fuel
    else if algo = "worst_fit" then worst_fit st size fuel
    else none
  match cand with
  | none => ⟨st, none⟩
  | some a =>
    match getBlock st a with
    | none => ⟨st, none⟩
    | some b =>
      let sp := split_block cfg st (some a) (subW b.size size)
      let st1 := sp.st
      let st2 :=
        if st1.free_head = some a then { st1 with free_head := nfOf st1 a }
        else unlinkLoop a st1 st1.free_head fuel
      let st3 :=
        if st2.free_head = none then { st2 with free_head := sp.ret }
        else
          match sp.ret with
          | none => st2
          | some ta =>
            match getBlock st2 ta with
            | none => st2
            | some tb => { setBlock st2 { tb with next_free := st2.free_head } with free_head := some ta }
      let st4 :=
        match getBlock st3 a with
        | none => st3
        | some b2 => setBlock st3 { b2 with free := false }
      ⟨st4, some a⟩

/-- Byte `i` of the little-endian encoding of `v`. -/
def byteAt (v i : Nat) : Nat := v / 256 ^ i % 256

/-- `memset(p, 0xAA, n)` applied to a `width`-byte little-endian field stored
at address `faddr`: every byte whose address lies in `[p, p + n)` becomes
`0xAA`, the others keep their value. -/
def fillField (v width faddr p n : Nat) : Nat :=
  (List.range width).foldl
    (fun acc i =>
      acc + (if p ≤ faddr + i ∧ faddr + i < p + n then 0xAA else byteAt v i) * 256 ^ i) 0

/-- The fill applied to a stored nullable pointer (null is the zero address;
a clobbered link reads back as whatever address its bytes now spell). -/
def fillPtr (o : Option Nat) (faddr p n : Nat) : Option Nat :=
  let v := fillField (o.getD 0) 8 faddr p n
  if v = 0 then none else some v

/-- The fill applied to the stored `int free` flag (4 value bytes; the flag
reads back as a C truth value, so any nonzero byte makes it true). -/
def fillFlag (b : Bool) (faddr p n : Nat) : Bool :=
  fillField (if b then 1 else 0) 4 faddr p n != 0

/-- The fill applied to the 32-byte tag buffer at `faddr`: when any tag byte is
overwritten the stored text is replaced by the `"ª"` marker (the model
keeps tag text, not tag bytes; no property here reads a clobbered tag). -/
def fillTag (s : String) (faddr p n : Nat) : String :=
  if 0 < n ∧ faddr < p + n ∧ p < faddr + 32 then "ª" else s

/-- `memset(p, 0xAA, n)` over one tracked block header, byte-precisely under
the modelled x86-64 layout of `mem_block_sz` (sequence number at offset 0,
length at 8, flag at 16, tag at 24, neighbor links at 56 and 64, free-list
link at 72).  `addr` is the header's own address and `region` is the model's
provenance field — neither is stored data, so neither can be overwritten. -/
def memsetHeader (b : MemBlock) (p n : Nat) : MemBlock :=
  { addr := b.addr,
    size := fillField b.size 8 (b.addr + 8) p n,
    block_number := fillField b.block_number 8 b.addr p n,
    free := fillFlag b.free (b.addr + 16) p n,
    name := fillTag b.name (b.addr + 24) p n,
    prev_block := fillPtr b.prev_block (b.addr + 56) p n,
    next_block := fillPtr b.next_block (b.addr + 64) p n,
    next_free := fillPtr b.next_free (b.addr + 72) p n,
    region := b.region }

/-- `memset(p, 0xAA, n)` as raw memory traffic: it overwrites the bytes of
every tracked header its range overlaps (block addresses are unchanged, the
fill writes no new headers). -/
def applyMemset (st : AllocState) (p n : Nat) : AllocState :=
  { st with blocks := st.blocks.map (fun b => memsetHeader b p n) }

/-- `actual_sz` of `malloc_impl` (`src/allocator.c:292`):
`size + sizeof(struct mem_region)` in `size_t` arithmetic.  (Note the source
adds the *region*-header size here, not the block-header size.) -/
def actualSz (cfg : AllocCfg) (size : Nat) : Nat := (size + cfg.HR) % sizeW

/-- `aligned_sz` of `malloc_impl` (`src/allocator.c:293`). -/
def alignedSz (cfg : AllocCfg) (size : Nat) : Nat := align (actualSz cfg size) 8

/-- `map_sz` of `malloc_impl` (`src/allocator.c:315`):
`align(aligned_sz + sizeof(struct mem_region), getpagesize())`. -/
def mapSz (cfg : AllocCfg) (size : Nat) : Nat :=
  align ((alignedSz cfg size + cfg.HR) % sizeW) cfg.page

/-- Result of `malloc_impl`: final state, returned payload pointer, the
scribble `memset` event (start address, length) if one was performed — the
event is also applied to the tracked headers in the final state via
`applyMemset` — and whether the call wrote through a null pointer (the
unchecked `new_block->next_free = g_free_list` at `src/allocator.c:349` when
the miss-path split produced no tail while the free list was non-empty). -/
structure MallocResult where
  st : AllocState
  ret : Option Nat
  fill : Option (Nat × Nat)
  fault : Bool
deriving DecidableEq, Repr

/-- `malloc_impl(size, name)` from `src/allocator.c:290`.

Hit path: `strcpy(reused_block->name, name)`, optional
`memset((void *) reused_block + 1, 0xAA, size)` — note the `void *` cast makes
this start one *byte* past the header start, so the fill overwrites the bytes
of whatever tracked headers it overlaps (`applyMemset`) — and return
`reused_block + 1` (one whole `mem_block` past the header).

Miss path: map a fresh region of `map_sz` bytes (`os` is the OS's answer),
append it to the region list, place the initial block header at
`(struct mem_block *) region + 1` (the cast binds before `+ 1`, so one whole
`mem_block` — `cfg.HB` bytes — past the region base), give it
`map_sz - sizeof(struct mem_region)` bytes, split off the tail, push the tail
onto the free-list head, optionally
`memset((void *) block + 1, 0xAA, aligned_sz)`, and return `block + 1`.
Fresh anonymous mappings are zero, so the initial header's links are null. -/
def malloc_impl (cfg : AllocCfg) (st : AllocState) (size : Nat) (name : String)
    (fuel : Nat) (os : Option Nat) : MallocResult :=
  let aligned_sz := alignedSz cfg size
  let r := reuse cfg st aligned_sz fuel
  match r.ret with
  | some a =>
    let st1 :=
      match getBlock r.st a with
      | none => r.st
      | some b => setBlock r.st { b with name := name }
    let st2 := if cfg.scribble = 1 then applyMemset st1 (a + 1) size else st1
    ⟨st2, some (a + cfg.HB), if cfg.scribble = 1 then some (a + 1, size) else none, false⟩
  | none =>
    match os with
    | none => ⟨r.st, none, none, false⟩
    | some base =>
      let map_sz := mapSz cfg size
      let region : MemRegion := { base := base, map_sz := map_sz, region_number := st.g_regions }
      let st1 := { r.st with regions := r.st.regions ++ [region], g_regions := st.g_regions + 1 }
      let ba := base + cfg.HB
      let b0 : MemBlock :=
        { addr := ba, size := subW map_sz cfg.HR, block_number := st1.g_allocations, free := false,
          name := name, prev_block := none, next_block := none, next_free := none, region := base }
      let st2 := { setBlock st1 b0 with g_allocations := st1.g_allocations + 1 }
      let sp := split_block cfg st2 (some ba) (subW b0.size (actualSz cfg size))
      let st3 := sp.st
      let st4 :=
        if st3.free_head = none then { st3 with free_head := sp.ret }
        else
          match sp.ret with
          | none => st3
          | some ta =>
            match getBlock st3 ta with
            | none => st3
            | some tb => { setBlock st3 { tb with next_free := st3.free_head } with free_head := some ta }
      let st5 := if cfg.scribble = 1 then applyMemset st4 (ba + 1) aligned_sz else st4
      ⟨st5, some (ba + cfg.HB),
        if cfg.scribble = 1 then some (ba + 1, aligned_sz) else none,
        sp.ret = none ∧ st3.free_head ≠ none⟩

/-- Result of `free_impl`: final state, the `munmap` request (address, length)
if one was issued, and whether that `munmap` succeeded. -/
structure FreeResult where
  st : AllocState
  munmap_req : Option (Nat × Nat)
  munmap_ok : Bool
deriving DecidableEq, Repr

/-- `free_impl(ptr)` from `src/allocator.c:369`: no-op on null; otherwise the
header is `(struct mem_block *) ptr - 1`, it is marked free and pushed onto the
free-list head (in the `g_free_list == NULL` branch the block becomes the head
without its `next_free` being written), and then the code calls
`munmap((void *) block - 1, block->size + sizeof(struct mem_region))` — the
`void *` cast makes the address one *byte* before the block header.  Per POSIX
the unmap succeeds only if the address is page-aligned and the length nonzero;
either way nothing in the allocator's bookkeeping changes afterwards. -/
def free_impl (cfg : AllocCfg) (st : AllocState) (ptr : Option Nat) : FreeResult :=
  match ptr with
  | none => ⟨st, none, false⟩
  | some p =>
    let ba := subW p cfg.HB
    match getBlock st ba with
    | none => ⟨st, none, false⟩
    | some b =>
      let fb := { b with free := true }
      let st1 := setBlock st fb
      let st2 :=
        if st1.free_head = none then { st1 with free_head := some ba }
        else { setBlock st1 { fb with next_free := st1.free_head } with free_head := some ba }
      let addr := subW ba 1
      let len := (b.size + cfg.HR) % sizeW
      ⟨st2, some (addr, len), (addr % cfg.page == 0) && (len != 0)⟩

/-- Result of `calloc_impl`: the `memset(ptr, 0, nmemb * size)` event is
recorded as `zero_addr`/`zero_len`; a null `ptr` is address `0`. -/
structure CallocResult where
  st : AllocState
  ret : Option Nat
  fill : Option (Nat × Nat)
  zero_addr : Nat
  zero_len : Nat
deriving DecidableEq, Repr

/-- `calloc_impl(nmemb, size, name)` from `src/allocator.c:413`:
`malloc_impl(nmemb * size, name)` followed by `memset(ptr, 0, nmemb * size)`
with no null check on `ptr`. -/
def calloc_impl (cfg : AllocCfg) (st : AllocState) (nmemb size : Nat) (name : String)
    (fuel : Nat) (os : Option Nat) : CallocResult :=
  let tot := nmemb * size % sizeW
  let m := malloc_impl cfg st tot name fuel os
  ⟨m.st, m.ret, m.fill, m.ret.getD 0, tot⟩

/-- Result of `realloc_impl`. -/
structure ReallocResult where
  st : AllocState
  ret : Option Nat
deriving DecidableEq, Repr

/-- `realloc_impl(ptr, size, name)` from `src/allocator.c:431`: null `ptr`
delegates to `malloc_impl`; `size == 0` delegates to `free_impl` and returns
null; every other case returns null and changes nothing. -/
def realloc_impl (cfg : AllocCfg) (st : AllocState) (ptr : Option Nat) (size : Nat)
    (name : String) (fuel : Nat) (os : Option Nat) : ReallocResult :=
  match ptr with
  | none =>
    let m := malloc_impl cfg st size name fuel os
    ⟨m.st, m.ret⟩
  | some p =>
    if size = 0 then ⟨(free_impl cfg st (some p)).st, none⟩
    else ⟨st, none⟩

/-- The state at process start: no regions, no blocks, empty free list,
both counters zero. -/
def initState : AllocState :=
  { blocks := [], regions := [], free_head := none, g_allocations := 0, g_regions := 0 }

/-- The free list as the list of addresses reached from `cur` through
`next_free`: `some l` when the walk reaches a null link within `fuel` steps
while every visited address carries a header, `none` otherwise. -/
def chainFrom (st : AllocState) : Option Nat → Nat → Option (List Nat)
  | none, _ => some []
  | some _, 0 => none
  | some a, fuel + 1 =>
    match getBlock st a with
    | none => none
    | some b => (chainFrom st b.next_free fuel).map (fun l => a :: l)

/-- Validity of the OS's answer to the `mmap` of a `malloc_impl(size, ...)`
call: a refusal is always possible; a granted base is page-aligned, nonzero,
disjoint from every tracked region, fits in the address space together with the
mapping and a block header, and `mmap` never grants a zero-length request. -/
def OsOk (cfg : AllocCfg) (st : AllocState) (size : Nat) : Option Nat → Prop
  | none => True
  | some base =>
    0 < mapSz cfg size ∧ base % cfg.page = 0 ∧ 0 < base ∧
    base + mapSz cfg size + cfg.HB ≤ sizeW ∧
    ∀ r ∈ st.regions, base + mapSz cfg size ≤ r.base ∨ r.base + r.map_sz ≤ base

/-- Validity of a `free_impl`/`realloc_impl` pointer argument: null, or a
pointer whose preceding header exists (the API contract — `release` is called
on pointers previously returned by `allocate`). -/
def PtrOk (cfg : AllocCfg) (st : AllocState) : Option Nat → Prop
  | none => True
  | some p => (getBlock st (subW p cfg.HB)).isSome

/-- Validity of the arguments of one `realloc_impl` call, by the case the call
takes. -/
def ReallocOk (cfg : AllocCfg) (st : AllocState) (ptr : Option Nat) (size : Nat)
    (os : Option Nat) : Prop :=
  match ptr with
  | none => OsOk cfg st size os
  | some p => size = 0 → PtrOk cfg st (some p)

/-- One externally visible call of the allocator API
(`allocate` / `release` / `bulk_allocate` / `resize`), with a valid OS answer
and valid pointer arguments. -/
inductive Step (cfg : AllocCfg) : AllocState → AllocState → Prop
  | malloc (st : AllocState) (size : Nat) (name : String) (fuel : Nat) (os : Option Nat)
      (hos : OsOk cfg st size os) :
      Step cfg st (malloc_impl cfg st size name fuel os).st
  | free (st : AllocState) (ptr : Option Nat) (hp : PtrOk cfg st ptr) :
      Step cfg st (free_impl cfg st ptr).st
  | calloc (st : AllocState) (nmemb size : Nat) (name : String) (fuel : Nat) (os : Option Nat)
      (hos : OsOk cfg st (nmemb * size % sizeW) os) :
      Step cfg st (calloc_impl cfg st nmemb size name fuel os).st
  | realloc (st : AllocState) (ptr : Option Nat) (size : Nat) (name : String) (fuel : Nat)
      (os : Option Nat) (h : ReallocOk cfg st ptr size os) :
      Step cfg st (realloc_impl cfg st ptr size name fuel os).st

/-- States reachable from process start by sequences of API calls. -/
inductive Reachable (cfg : AllocCfg) : AllocState → Prop
  | init : Reachable cfg initState
  | step {st st' : AllocState} : Reachable cfg st → Step cfg st st' → Reachable cfg st'

/-! Concrete fixtures used by the witness / counterexample theorems below. -/

/-- The default configuration: modelled header sizes, 4096-byte pages, no
`ALLOCATOR_ALGORITHM` / `ALLOCATOR_SCRIBBLE` in the environment. -/
def exCfg : AllocCfg :=
  { HB := mem_block_sz, HR := mem_region_sz, page := 4096, algo := none, scribble := 0 }

/-- `exCfg` with the debug fill flag enabled (`ALLOCATOR_SCRIBBLE=1`). -/
def exCfgScribble : AllocCfg := { exCfg with scribble := 1 }

/-- `exCfg` with an unrecognized `ALLOCATOR_ALGORITHM` value. -/
def exCfgUnknown : AllocCfg := { exCfg with algo := some "buddy" }

/-- A free list holding two free blocks of equal size 12 (head at 100, then
200), for the fit-strategy tie-breaking checks. -/
def tieSt : AllocState :=
  { blocks :=
      [{ addr := 100, size := 12, block_number := 0, free := true, name := "",
         prev_block := none, next_block := none, next_free := some 200, region := 0 },
       { addr := 200, size := 12, block_number := 1, free := true, name := "",
         prev_block := none, next_block := none, next_free := none, region := 0 }],
    regions := [], free_head := some 100, g_allocations := 2, g_regions := 0 }

/-- A region-order chain `[b1 free (100)] [b2 free (150)] [b3 used (90)]` — the
configuration of the `merge_block` documentation diagram. -/
def mergeSt : AllocState :=
  { blocks :=
      [{ addr := 1000, size := 100, block_number := 0, free := true, name := "",
         prev_block := none, next_block := some 1100, next_free := none, region := 0 },
       { addr := 1100, size := 150, block_number := 1, free := true, name := "",
         prev_block := some 1000, next_block := some 1250, next_free := none, region := 0 },
       { addr := 1250, size := 90, block_number := 2, free := false, name := "",
         prev_block := some 1100, next_block := none, next_free := none, region := 0 }],
    regions := [], free_head := none, g_allocations := 3, g_regions := 0 }

/-- A single free block of size 200 at address 1000, for the `split_block`
overflow counterexample. -/
def splitSt : AllocState :=
  { blocks :=
      [{ addr := 1000, size := 200, block_number := 0, free := true, name := "",
         prev_block := none, next_block := none, next_free := none, region := 0 }],
    regions := [], free_head := some 1000, g_allocations := 1, g_regions := 0 }

/-- A single free block of size 300 at address 1000 heading the free list, for
the `split_block` witness and the scribble-fill check. -/
def freeSt : AllocState :=
  { blocks :=
      [{ addr := 1000, size := 300, block_number := 0, free := true, name := "",
         prev_block := none, next_block := none, next_free := none, region := 0 }],
    regions := [], free_head := some 1000, g_allocations := 1, g_regions := 0 }

/-- The scenario `allocate(100, "x")` on the empty engine, granted the region
base 4096. -/
def scen1 : MallocResult := malloc_impl exCfg initState 100 "x" 50 (some 4096)

/-- The scenario continued: `release` of the returned pointer. -/
def scen2 : FreeResult := free_impl exCfg scen1.st scen1.ret

/-- The state after `allocate(100, "x"); release(ptr)`. -/
def scenSt : AllocState := scen2.st

/-! Definitions for the block-ledger invariant (claim C7). -/

/-- Two blocks occupy disjoint address ranges. -/
def blockDisj (b c : MemBlock) : Prop :=
  b.addr + b.size ≤ c.addr ∨ c.addr + c.size ≤ b.addr

/-- The blocks owned by the region based at `base`. -/
def regionBlocks (st : AllocState) (base : Nat) : List MemBlock :=
  st.blocks.filter (fun b => b.region == base)

/-- Total of the recorded block lengths of a list of blocks. -/
def sumSizes (l : List MemBlock) : Nat := (l.map (·.size)).sum

/-- The blocks `l` exactly cover the address interval `[lo, hi)`: each lies
inside it with positive length, no two overlap, and the lengths add up to the
interval's length. -/
def Covers (lo hi : Nat) (l : List MemBlock) : Prop :=
  (∀ b ∈ l, lo ≤ b.addr ∧ b.addr + b.size ≤ hi ∧ 0 < b.size) ∧
  l.Pairwise blockDisj ∧ sumSizes l = hi - lo

/-- Start of the block area of region `r`: the code places the initial header at
`(struct mem_block *) region + 1`, i.e. `r.base + cfg.HB`. -/
def regionLo (cfg : AllocCfg) (r : MemRegion) : Nat := r.base + cfg.HB

/-- End of the block area of region `r`: the initial block receives
`map_sz - sizeof(struct mem_region)` bytes. -/
def regionHi (cfg : AllocCfg) (r : MemRegion) : Nat :=
  r.base + cfg.HB + (r.map_sz - cfg.HR)

/-- Sanity of the configuration parameters: positive header sizes, a page that
holds both headers plus one alignment unit, and a power-of-two-style page size
(it divides `2^64` and is below it), as on every real target. -/
def SaneCfg (cfg : AllocCfg) : Prop :=
  0 < cfg.HB ∧ 0 < cfg.HR ∧ cfg.HB + cfg.HR + 8 ≤ cfg.page ∧
  cfg.page ∣ sizeW ∧ cfg.page < sizeW

/-- The inductive block-ledger invariant: every tracked region is page-sized
and bounded, regions are pairwise disjoint, every block belongs to a tracked
region, block addresses are globally distinct, the blocks of each region
exactly cover its block area, and every block is at least a header long. -/
structure LedgerInv (cfg : AllocCfg) (st : AllocState) : Prop where
  regsOk : ∀ r ∈ st.regions,
    cfg.page ≤ r.map_sz ∧ r.map_sz % cfg.page = 0 ∧
    0 < r.base ∧ r.base + r.map_sz + cfg.HB ≤ sizeW
  regsDisj : st.regions.Pairwise (fun r s => r.base + r.map_sz ≤ s.base ∨ s.base + s.map_sz ≤ r.base)
  owned : ∀ b ∈ st.blocks, ∃ r ∈ st.regions, b.region = r.base
  nodupa : (st.blocks.map (·.addr)).Nodup
  covers : ∀ r ∈ st.regions, Covers (regionLo cfg r) (regionHi cfg r) (regionBlocks st r.base)
  szlb : ∀ b ∈ st.blocks, cfg.HB ≤ b.size

/-! Basic lemmas about the header heap and frame lemmas of the operations. -/

theorem getBlock_setBlock_self (st : AllocState) (b : MemBlock) :
    getBlock (setBlock st b) b.addr = some b := by
  simp [getBlock, setBlock, List.find?]


theorem findAddr_filter (l : List MemBlock) (a bad : Nat) (h : a ≠ bad) :
    (l.filter (fun c => c.addr != bad)).find? (fun c => c.addr == a)
      = l.find? (fun c => c.addr == a) := by
  induction l with
  | nil => rfl
  | cons c tl ih =>
    by_cases hc : c.addr = bad
    · have h1 : (c.addr != bad) = false := by simp [hc]
      have h2 : (c.addr == a) = false := by
        rw [hc]
        exact beq_false_of_ne (Ne.symm h)
      simp only [List.filter_cons, h1, Bool.false_eq_true, if_false, List.find?_cons, h2, ih]
    · have h1 : (c.addr != bad) = true := by simp [hc]
      by_cases hca : c.addr = a
      · have h2 : (c.addr == a) = true := by simp [hca]
        simp only [List.filter_cons, h1, if_true, List.find?_cons, h2]
      · have h2 : (c.addr == a) = false := by simp [hca]
        simp only [List.filter_cons, h1, if_true, List.find?_cons, h2, ih]

theorem getBlock_setBlock_ne (st : AllocState) (b : MemBlock) (a : Nat) (h : a ≠ b.addr) :
    getBlock (setBlock st b) a = getBlock st a := by
  have h2 : (b.addr == a) = false := beq_false_of_ne (Ne.symm h)
  show (b :: st.blocks.filter (fun c => c.addr != b.addr)).find? (fun c => c.addr == a)
      = st.blocks.find? (fun c => c.addr == a)
  rw [List.find?_cons, h2]
  exact findAddr_filter st.blocks a b.addr h

theorem setBlock_regions (st : AllocState) (b : MemBlock) :
    (setBlock st b).regions = st.regions := rfl

theorem setBlock_free_head (st : AllocState) (b : MemBlock) :
    (setBlock st b).free_head = st.free_head := rfl

theorem setBlock_blocks (st : AllocState) (b : MemBlock) :
    (setBlock st b).blocks = b :: st.blocks.filter (fun c => c.addr != b.addr) := rfl

theorem applyMemset_regions (st : AllocState) (p n : Nat) :
    (applyMemset st p n).regions = st.regions := rfl

theorem split_block_regions (cfg : AllocCfg) (st : AllocState) (ba : Option Nat) (size : Nat) :
    (split_block cfg st ba size).st.regions = st.regions := by
  unfold split_block
  rcases ba with _ | a
  · rfl
  · rcases hgb : getBlock st a with _ | b <;> simp only [hgb] <;> split <;> try rfl
    split
    · rfl
    · split <;> rfl

theorem split_block_free_head (cfg : AllocCfg) (st : AllocState) (ba : Option Nat) (size : Nat) :
    (split_block cfg st ba size).st.free_head = st.free_head := by
  unfold split_block
  rcases ba with _ | a
  · rfl
  · rcases hgb : getBlock st a with _ | b <;> simp only [hgb] <;> split <;> try rfl
    split
    · rfl
    · split <;> rfl

theorem unlinkLoop_regions (t : Nat) (fuel : Nat) : ∀ (st : AllocState) (cur : Option Nat),
    (unlinkLoop t st cur fuel).regions = st.regions := by
  induction fuel with
  | zero => intro st cur; cases cur <;> rfl
  | succ n ih =>
    intro st cur
    cases cur with
    | none => rfl
    | some c =>
      simp only [unlinkLoop]
      split
      · rfl
      · split
        · rw [ih]; rfl
        · exact ih _ _

theorem unlinkLoop_free_head (t : Nat) (fuel : Nat) : ∀ (st : AllocState) (cur : Option Nat),
    (unlinkLoop t st cur fuel).free_head = st.free_head := by
  induction fuel with
  | zero => intro st cur; cases cur <;> rfl
  | succ n ih =>
    intro st cur
    cases cur with
    | none => rfl
    | some c =>
      simp only [unlinkLoop]
      split
      · rfl
      · split
        · rw [ih]; rfl
        · exact ih _ _

theorem reuse_regions (cfg : AllocCfg) (st : AllocState) (size fuel : Nat) :
    (reuse cfg st size fuel).st.regions = st.regions := by
  unfold reuse
  dsimp only
  split
  · rfl
  · split
    · rfl
    · dsimp only
      repeat' split
      all_goals
        simp only [setBlock_regions, unlinkLoop_regions, split_block_regions]

/-! Claim C8: the alignment arithmetic. -/

/-- C8 (amended): for every `s` and every `g > 0` such that `s + g ≤ 2^64`
(the rounding-up step cannot wrap `size_t`), `align s g` is the smallest
multiple of `g` that is at least `s`: it is divisible by `g`, at least `s`,
less than `s + g` (i.e. `align(s,g) − g < s`), and below every multiple of `g`
that is at least `s`.  The claim's "including when the computation is carried
out in fixed-width size_t arithmetic" fails without the no-overflow bound; see
the counterexample. -/
theorem align_smallest_multiple (s g : Nat) (hg : 0 < g) (hsg : s + g ≤ sizeW) :
    align s g % g = 0 ∧ s ≤ align s g ∧ align s g < s + g ∧
    ∀ m, s ≤ m → g ∣ m → align s g ≤ m := by
  have key : s / g * g + s % g = s := Nat.div_add_mod' s g
  have hmlt : s % g < g := Nat.mod_lt _ hg
  unfold align
  by_cases h : s % g = 0
  · have hs : s / g * g = s := by omega
    rw [if_neg (by omega)]
    rw [hs]
    exact ⟨h, Nat.le_refl s, by omega, fun m hm _ => hm⟩
  · have h1 : s / g * g < s := by omega
    have h2 : s / g * g + g < sizeW := by omega
    rw [if_pos (by omega)]
    rw [Nat.mod_eq_of_lt h2]
    refine ⟨?_, by omega, by omega, ?_⟩
    · have hrw : s / g * g + g = (s / g + 1) * g := by ring
      rw [hrw, Nat.mul_mod_left]
    · rintro m hm ⟨k, hk⟩
      subst hk
      have hsk : s < g * k := by
        rcases Nat.lt_or_ge s (g * k) with h' | h'
        · exact h'
        · have hEq : s = g * k := Nat.le_antisymm hm h'
          rw [hEq, Nat.mul_mod_right] at h
          exact absurd rfl h
      have hq : s / g < k := (Nat.div_lt_iff_lt_mul hg).2 (by rw [Nat.mul_comm]; exact hsk)
      calc s / g * g + g = (s / g + 1) * g := by ring
        _ ≤ k * g := Nat.mul_le_mul_right g hq
        _ = g * k := Nat.mul_comm _ _

/-- C8 counterexample: carried out in fixed-width `size_t` arithmetic, the
claimed property `s ≤ align(s, g)` fails at `s = 2^64 − 1`, `g = 8`: the
rounding-up step wraps and `align` returns `0`. -/
theorem align_fixed_width_counterexample :
    align (2 ^ 64 - 1) 8 = 0 ∧ ¬ (2 ^ 64 - 1 ≤ align (2 ^ 64 - 1) 8) := by
  refine ⟨by decide, by decide⟩

/-- C8 witness: the amended theorem applied at `s = 13`, `g = 8`. -/
theorem align_smallest_multiple_witness :
    align 13 8 % 8 = 0 ∧ 13 ≤ align 13 8 ∧ align 13 8 < 13 + 8 ∧
    ∀ m, 13 ≤ m → 8 ∣ m → align 13 8 ≤ m :=
  align_smallest_multiple 13 8 (by decide) (by decide)

/-! Claim C4: best-fit / worst-fit tie-breaking. -/

/-- C4: on the free list `[12, 12]` (head at 100, then 200) with request 10,
both blocks qualify and tie on size, yet `best_fit` and `worst_fit` both return
the block scanned *last* (200), not the earliest-scanned (100) as their own
documentation comments and the claim state: the `>=` / `<=` comparisons let a
tying later candidate replace the earlier one.  (`first_fit` returns 100.) -/
theorem best_worst_fit_tie_goes_to_latest :
    (getBlock tieSt 100).map (·.size) = some 12 ∧
    (getBlock tieSt 200).map (·.size) = some 12 ∧
    first_fit tieSt 10 5 = some 100 ∧
    best_fit tieSt 10 5 = some 200 ∧
    worst_fit tieSt 10 5 = some 200 := by
  refine ⟨by decide, by decide, by decide, by decide, by decide⟩

/-! Claim C3: `merge_block` over a free run. -/

/-- C3: on the chain `[b1 free (100)] [b2 free (150)] [b3 used (90)]` of the
function's own documentation diagram, `merge_block(b1)` returns the *right*
block `b2` (address 1100) instead of `b1`, leaves `b1` in the chain completely
unchanged (still linked to `b2`, still 100 bytes), and gives `b2` the combined
size 250 — so the free run does not collapse into a single block and the two
remaining chain entries now double-count 100 bytes.  On the used block `b3` the
call is a no-op returning null, as claimed. -/
theorem merge_block_leaves_run_uncollapsed :
    (merge_block mergeSt 1000 10).ret = some 1100 ∧
    getBlock (merge_block mergeSt 1000 10).st 1000
      = some { addr := 1000, size := 100, block_number := 0, free := true, name := "",
               prev_block := none, next_block := some 1100, next_free := none, region := 0 } ∧
    (getBlock (merge_block mergeSt 1000 10).st 1100).map (·.size) = some 250 ∧
    merge_block mergeSt 1250 10 = ⟨mergeSt, none⟩ := by
  refine ⟨by decide, by decide, by decide, by decide⟩

/-! Claim C5: `calloc_impl` and null results. -/

/-- C5: when the OS refuses the mapping, `bulk_allocate(4, 25, "t")` gets a
null result from `allocate` — and then passes that null pointer straight to
`memset` with length `4 * 25 = 100`: the zero-fill is performed on address 0
instead of being skipped. -/
theorem bulk_allocate_zero_fills_null :
    (calloc_impl exCfg initState 4 25 "t" 10 none).ret = none ∧
    (calloc_impl exCfg initState 4 25 "t" 10 none).zero_addr = 0 ∧
    (calloc_impl exCfg initState 4 25 "t" 10 none).zero_len = 100 := by
  refine ⟨by decide, by decide, by decide⟩

/-! Claim C9: the debug sentinel fill. -/

/-- C9: with the debug fill flag on, the reuse-path fill
`memset((void *) reused_block + 1, 0xAA, size)` starts one *byte* past the
block header start, not at the returned payload address: serving 60 bytes from
the free block at 1000 returns payload address 1080 while the fill covers
`[1001, 1061)` — entirely inside the header `[1000, 1080)`, overwriting header
metadata and not one payload byte.  On the miss path the fill likewise starts
at `block + 1` byte (4177, one past the header at 4176) and runs for
`aligned_sz` (128) rather than the payload, while the payload starts at 4256. -/
theorem scribble_fills_header_not_payload :
    (malloc_impl exCfgScribble freeSt 60 "n" 10 none).ret = some 1080 ∧
    (malloc_impl exCfgScribble freeSt 60 "n" 10 none).fill = some (1001, 60) ∧
    1001 + 60 ≤ 1080 ∧
    (malloc_impl exCfgScribble initState 100 "x" 10 (some 4096)).ret = some 4256 ∧
    (malloc_impl exCfgScribble initState 100 "x" 10 (some 4096)).fill = some (4177, 128) := by
  refine ⟨by decide, by decide, by decide, by decide, by decide⟩

/-! Claim C1: `free_impl` and the region unmap. -/

/-- C1: after `allocate(100, "x")` served from the region mapped at base 4096
(block header at 4176, payload pointer 4256), `release` of that pointer does
mark the preceding header free and does push it onto the free-list head, but
the unmap it then issues is `munmap(4175, 148)` — one byte before the block
header, for the block's size plus the region header — and not the region base
4096 with the mapped range 4096; being page-misaligned the call fails, so the
region stays mapped and on the region list.  `release(null)` changes nothing. -/
theorem release_unmap_misses_region :
    scen1.ret = some 4256 ∧
    scen1.st.regions = [{ base := 4096, map_sz := 4096, region_number := 0 }] ∧
    (getBlock scen2.st 4176).map (·.free) = some true ∧
    scen2.st.free_head = some 4176 ∧
    scen2.munmap_req = some (4175, 148) ∧
    scen2.munmap_ok = false ∧
    scen2.st.regions = scen1.st.regions ∧
    free_impl exCfg scen1.st none = ⟨scen1.st, none, false⟩ := by
  refine ⟨by decide, by decide, by decide, by decide, by decide, by decide, by decide, by decide⟩

/-! Claim C10: unrecognized `ALLOCATOR_ALGORITHM`. -/

/-- C10: with `ALLOCATOR_ALGORITHM` set to a value that is none of
`first_fit` / `best_fit` / `worst_fit`, the free-list search of `reuse` finds
no candidate and changes nothing, whatever the free list holds, so every
`allocate` takes the miss path: when the OS grants the mapping, a new region is
appended to the region list. -/
theorem unknown_algo_always_misses (cfg : AllocCfg) (st : AllocState) (size fuel : Nat)
    (name : String) (base : Nat) (s : String) (halgo : cfg.algo = some s)
    (h1 : s ≠ "first_fit") (h2 : s ≠ "best_fit") (h3 : s ≠ "worst_fit") :
    (reuse cfg st size fuel).ret = none ∧ (reuse cfg st size fuel).st = st ∧
    (malloc_impl cfg st size name fuel (some base)).st.regions
      = st.regions ++ [{ base := base, map_sz := mapSz cfg size, region_number := st.g_regions }] := by
  have hre : ∀ sz f, reuse cfg st sz f = ⟨st, none⟩ := by
    intro sz f
    unfold reuse
    rw [halgo]
    dsimp only [Option.getD]
    rw [if_neg h1, if_neg h2, if_neg h3]
  refine ⟨by rw [hre], by rw [hre], ?_⟩
  unfold malloc_impl
  simp only [hre]
  repeat' split
  all_goals simp only [applyMemset_regions, setBlock_regions, split_block_regions]

/-- C10 witness: `ALLOCATOR_ALGORITHM=buddy` with a free list that holds a
qualifying block (two free blocks of size 12, request 10): the search still
returns no candidate and `allocate` maps a fresh region at 8192. -/
theorem unknown_algo_always_misses_witness :
    (reuse exCfgUnknown tieSt 10 5).ret = none ∧ (reuse exCfgUnknown tieSt 10 5).st = tieSt ∧
    (malloc_impl exCfgUnknown tieSt 10 "z" 5 (some 8192)).st.regions
      = tieSt.regions ++ [{ base := 8192, map_sz := mapSz exCfgUnknown 10, region_number := tieSt.g_regions }] :=
  unknown_algo_always_misses exCfgUnknown tieSt 10 5 "z" 8192 "buddy" rfl
    (by decide) (by decide) (by decide)

theorem getBlock_addr (st : AllocState) (a : Nat) (b : MemBlock) (h : getBlock st a = some b) :
    b.addr = a := by
  have := List.find?_some h
  simpa using this

/-! Claim C2: `split_block`. -/


theorem getBlock_setBlock_of_addr (st : AllocState) (b : MemBlock) (a : Nat) (h : b.addr = a) :
    getBlock (setBlock st b) a = some b := by
  rw [← h]
  exact getBlock_setBlock_self st b

/-- C2 (amended): for a block `b` at address `a` and a tail size `t` such that
`t + sizeof(struct mem_block)` does not wrap `size_t` (and the block is a sane
object: size and extent below `2^64`), `split_block` succeeds exactly when both
the new tail (`t`) and the resulting head (`b.size − t`) are at least one block
header plus one alignment unit (8 bytes); on success the head keeps address `a`
with its size reduced by `t`, the new trailing block sits at `a + (b.size − t)`
with size `t`, marked free, carrying the next global sequence number, linked
back to the head and forward to `b`'s old next-neighbor, the two sizes sum to
`b`'s original size, and the sequence counter advances; on failure the state
and the block are unchanged and the result is null.  Without the no-wrap bound
on `t` the equivalence fails; see the counterexample. -/
theorem split_block_correct (cfg : AllocCfg) (st : AllocState) (a t : Nat) (b : MemBlock)
    (hb : getBlock st a = some b) (hbsz : b.size < sizeW) (ht : t + cfg.HB < sizeW)
    (haddr : a + b.size < sizeW) :
    ((split_block cfg st (some a) t).ret.isSome ↔ cfg.HB + 8 ≤ t ∧ t + cfg.HB + 8 ≤ b.size) ∧
    (cfg.HB + 8 ≤ t → t + cfg.HB + 8 ≤ b.size →
      (split_block cfg st (some a) t).ret = some (a + (b.size - t)) ∧
      getBlock (split_block cfg st (some a) t).st a
        = some { b with size := b.size - t, next_block := some (a + (b.size - t)) } ∧
      getBlock (split_block cfg st (some a) t).st (a + (b.size - t))
        = some { addr := a + (b.size - t), size := t, block_number := st.g_allocations,
                 free := true, name := "", prev_block := some a, next_block := b.next_block,
                 next_free := none, region := b.region } ∧
      (b.size - t) + t = b.size ∧
      (split_block cfg st (some a) t).st.g_allocations = st.g_allocations + 1) ∧
    (¬ (cfg.HB + 8 ≤ t ∧ t + cfg.HB + 8 ≤ b.size) →
      split_block cfg st (some a) t = ⟨st, none⟩) := by
  have hba : b.addr = a := getBlock_addr st a b hb
  have htW : t < sizeW := by omega
  have hmod : (t + cfg.HB) % sizeW = t + cfg.HB := Nat.mod_eq_of_lt ht
  by_cases hcond : cfg.HB + 8 ≤ t ∧ t + cfg.HB + 8 ≤ b.size
  · obtain ⟨h1, h2⟩ := hcond
    have hts : t ≤ b.size := by omega
    have hsub : subW b.size t = b.size - t := by
      unfold subW
      rw [Nat.mod_eq_of_lt htW]
      have hsplit : b.size + (sizeW - t) = sizeW + (b.size - t) := by omega
      rw [hsplit, Nat.add_mod_left]
      exact Nat.mod_eq_of_lt (by omega)
    have heval : split_block cfg st (some a) t
        = ⟨setBlock
            { setBlock st
                { addr := a + (b.size - t), size := t, block_number := st.g_allocations,
                  free := true, name := "", prev_block := some a, next_block := b.next_block,
                  next_free := none, region := b.region } with
              g_allocations := st.g_allocations + 1 }
            { b with next_block := some (a + (b.size - t)), size := b.size - t },
           some (a + (b.size - t))⟩ := by
      simp only [split_block, hb, hmod, hsub]
      rw [if_pos (show 0 < t ∧ t + cfg.HB < b.size by omega)]
      rw [if_neg (show ¬ t < cfg.HB + 8 by omega), if_neg (show ¬ b.size - t < cfg.HB + 8 by omega)]
      rw [Nat.mod_eq_of_lt (show a + (b.size - t) < sizeW by omega)]
    rw [heval]
    refine ⟨by simp [h1, h2], fun _ _ => ⟨rfl, ?_, ?_, by omega, rfl⟩,
      fun hc => absurd ⟨h1, h2⟩ hc⟩
    · exact getBlock_setBlock_of_addr _ _ _ hba
    · have h3 : a + (b.size - t)
          ≠ ({ b with next_block := some (a + (b.size - t)), size := b.size - t } : MemBlock).addr := by
        show a + (b.size - t) ≠ b.addr
        omega
      rw [getBlock_setBlock_ne _ _ _ h3]
      exact getBlock_setBlock_of_addr _ _ _ rfl
  · have heval : split_block cfg st (some a) t = ⟨st, none⟩ := by
      simp only [split_block, hb, hmod]
      by_cases h0 : 0 < t ∧ t + cfg.HB < b.size
      · rw [if_pos h0]
        obtain ⟨h0a, h0b⟩ := h0
        have hts : t ≤ b.size := by omega
        have hsub : subW b.size t = b.size - t := by
          unfold subW
          rw [Nat.mod_eq_of_lt htW]
          have hsplit : b.size + (sizeW - t) = sizeW + (b.size - t) := by omega
          rw [hsplit, Nat.add_mod_left]
          exact Nat.mod_eq_of_lt (by omega)
        simp only [hsub]
        by_cases ht8 : t < cfg.HB + 8
        · rw [if_pos ht8]
        · rw [if_neg ht8, if_pos (show b.size - t < cfg.HB + 8 by omega)]
      · rw [if_neg h0]
    rw [heval]
    exact ⟨by simp [hcond], fun hx hy => absurd ⟨hx, hy⟩ hcond, fun _ => rfl⟩

/-- C2 counterexample: on a free block of size 200 at address 1000 and tail
size `t = 2^64 − 1`, the `size_t` arithmetic wraps: `split_block` *succeeds*
(the head becomes 201 bytes, the tail `2^64 − 1`), although the claimed
characterisation demands a head of `b.size − t` — which is `0 < header + 8` —
and the two resulting sizes do not sum to the original 200.  So the claimed
"if and only if" and sum property are false as stated over all tail sizes. -/
theorem split_block_overflow_counterexample :
    (split_block exCfg splitSt (some 1000) (2 ^ 64 - 1)).ret.isSome = true ∧
    (200 - (2 ^ 64 - 1) : Nat) = 0 ∧
    ¬ ((split_block exCfg splitSt (some 1000) (2 ^ 64 - 1)).ret.isSome ↔
        (exCfg.HB + 8 ≤ 2 ^ 64 - 1 ∧ exCfg.HB + 8 ≤ 200 - (2 ^ 64 - 1))) ∧
    (getBlock (split_block exCfg splitSt (some 1000) (2 ^ 64 - 1)).st 1000).map (·.size)
      = some 201 ∧
    (getBlock (split_block exCfg splitSt (some 1000) (2 ^ 64 - 1)).st 1201).map (·.size)
      = some (2 ^ 64 - 1) ∧
    201 + (2 ^ 64 - 1) ≠ 200 := by
  refine ⟨by decide, by decide, by decide, by decide, by decide, by decide⟩

/-- C2 witness: the amended theorem applied to the 300-byte block at 1000 with
`t = 150` (both pieces end up ≥ 88 = header + 8). -/
theorem split_block_correct_witness :
    ((split_block exCfg freeSt (some 1000) 150).ret.isSome ↔
      exCfg.HB + 8 ≤ 150 ∧ 150 + exCfg.HB + 8 ≤ 300) ∧
    (exCfg.HB + 8 ≤ 150 → 150 + exCfg.HB + 8 ≤ 300 →
      (split_block exCfg freeSt (some 1000) 150).ret = some (1000 + (300 - 150)) ∧
      getBlock (split_block exCfg freeSt (some 1000) 150).st 1000
        = some { addr := 1000, size := 300 - 150, block_number := 0, free := true, name := "",
                 prev_block := none, next_block := some (1000 + (300 - 150)), next_free := none,
                 region := 0 } ∧
      getBlock (split_block exCfg freeSt (some 1000) 150).st (1000 + (300 - 150))
        = some { addr := 1000 + (300 - 150), size := 150, block_number := 1,
                 free := true, name := "", prev_block := some 1000, next_block := none,
                 next_free := none, region := 0 } ∧
      (300 - 150) + 150 = 300 ∧
      (split_block exCfg freeSt (some 1000) 150).st.g_allocations = 1 + 1) ∧
    (¬ (exCfg.HB + 8 ≤ 150 ∧ 150 + exCfg.HB + 8 ≤ 300) →
      split_block exCfg freeSt (some 1000) 150 = ⟨freeSt, none⟩) :=
  split_block_correct exCfg freeSt 1000 150
    { addr := 1000, size := 300, block_number := 0, free := true, name := "",
      prev_block := none, next_block := none, next_free := none, region := 0 }
    (by decide) (by decide) (by decide) (by decide)

/-! Claim C6: a qualifying free block is always served from the free list. -/

theorem first_fit_finds (st : AllocState) (size : Nat) :
    ∀ (fuel : Nat) (cur : Option Nat) (l : List Nat),
      chainFrom st cur fuel = some l →
      (∃ a ∈ l, ∃ b, getBlock st a = some b ∧ size ≤ b.size) →
      ∃ a, first_fitAux st size cur fuel = some a ∧ (getBlock st a).isSome := by
  intro fuel
  induction fuel with
  | zero =>
    intro cur l hch hq
    cases cur with
    | none =>
      simp only [chainFrom, Option.some_inj] at hch
      subst hch
      simp at hq
    | some a => simp [chainFrom] at hch
  | succ n ih =>
    intro cur l hch hq
    cases cur with
    | none =>
      simp only [chainFrom, Option.some_inj] at hch
      subst hch
      simp at hq
    | some a =>
      cases hgb : getBlock st a with
      | none => rw [chainFrom, hgb] at hch; simp at hch
      | some b =>
        rw [chainFrom, hgb] at hch
        obtain ⟨l2, hl2, hcons⟩ := Option.map_eq_some'.1 hch
        subst hcons
        by_cases hsz : size ≤ b.size
        · refine ⟨a, ?_, by rw [hgb]; rfl⟩
          simp only [first_fitAux, hgb]
          rw [if_pos hsz]
        · obtain ⟨a2, ha2, b2, hgb2, hsz2⟩ := hq
          rcases List.mem_cons.1 ha2 with rfl | hmem
          · rw [hgb] at hgb2
            cases hgb2
            exact absurd hsz2 hsz
          · obtain ⟨a3, h3, h4⟩ := ih b.next_free l2 hl2 ⟨a2, hmem, b2, hgb2, hsz2⟩
            refine ⟨a3, ?_, h4⟩
            simp only [first_fitAux, hgb]
            rw [if_neg hsz]
            exact h3

theorem best_fitAux_finds (st : AllocState) (size : Nat) :
    ∀ (fuel : Nat) (cur : Option Nat) (best : Option (Nat × Nat)) (l : List Nat),
      chainFrom st cur fuel = some l →
      (∀ p, best = some p → (getBlock st p.1).isSome) →
      ((∃ a ∈ l, ∃ b, getBlock st a = some b ∧ size ≤ b.size) ∨ best.isSome) →
      ∃ a, best_fitAux st size cur best fuel = some a ∧ (getBlock st a).isSome := by
  intro fuel
  induction fuel with
  | zero =>
    intro cur best l hch hinv hq
    cases cur with
    | none =>
      simp only [chainFrom, Option.some_inj] at hch
      subst hch
      cases best with
      | none => simp at hq
      | some p => exact ⟨p.1, rfl, hinv p rfl⟩
    | some a => simp [chainFrom] at hch
  | succ n ih =>
    intro cur best l hch hinv hq
    cases cur with
    | none =>
      simp only [chainFrom, Option.some_inj] at hch
      subst hch
      cases best with
      | none => simp at hq
      | some p => exact ⟨p.1, rfl, hinv p rfl⟩
    | some a =>
      cases hgb : getBlock st a with
      | none => rw [chainFrom, hgb] at hch; simp at hch
      | some b =>
        rw [chainFrom, hgb] at hch
        obtain ⟨l2, hl2, hcons⟩ := Option.map_eq_some'.1 hch
        subst hcons
        simp only [best_fitAux, hgb]
        by_cases hsz : size ≤ b.size
        · rw [if_pos hsz]
          cases best with
          | none =>
            exact ih b.next_free (some (a, b.size)) l2 hl2
              (by rintro p hp; cases hp; rw [hgb]; rfl) (Or.inr rfl)
          | some p =>
            rcases p with ⟨pa, ps⟩
            dsimp only
            by_cases hcmp : b.size ≤ ps
            · rw [if_pos hcmp]
              exact ih b.next_free (some (a, b.size)) l2 hl2
                (by rintro q hqe; cases hqe; rw [hgb]; rfl) (Or.inr rfl)
            · rw [if_neg hcmp]
              exact ih b.next_free (some (pa, ps)) l2 hl2
                (by rintro q hqe; cases hqe; exact hinv (pa, ps) rfl) (Or.inr rfl)
        · rw [if_neg hsz]
          cases best with
          | none =>
            rcases hq with ⟨a2, ha2, b2, hgb2, hsz2⟩ | hb
            · rcases List.mem_cons.1 ha2 with rfl | hmem
              · rw [hgb] at hgb2
                cases hgb2
                exact absurd hsz2 hsz
              · exact ih b.next_free none l2 hl2 (by rintro p h; cases h)
                  (Or.inl ⟨a2, hmem, b2, hgb2, hsz2⟩)
            · simp at hb
          | some p =>
            exact ih b.next_free (some p) l2 hl2
              (by rintro q hqe; cases hqe; exact hinv p rfl) (Or.inr rfl)

theorem worst_fitAux_finds (st : AllocState) (size : Nat) :
    ∀ (fuel : Nat) (cur : Option Nat) (best : Option (Nat × Nat)) (l : List Nat),
      chainFrom st cur fuel = some l →
      (∀ p, best = some p → (getBlock st p.1).isSome) →
      ((∃ a ∈ l, ∃ b, getBlock st a = some b ∧ size ≤ b.size) ∨ best.isSome) →
      ∃ a, worst_fitAux st size cur best fuel = some a ∧ (getBlock st a).isSome := by
  intro fuel
  induction fuel with
  | zero =>
    intro cur best l hch hinv hq
    cases cur with
    | none =>
      simp only [chainFrom, Option.some_inj] at hch
      subst hch
      cases best with
      | none => simp at hq
      | some p => exact ⟨p.1, rfl, hinv p rfl⟩
    | some a => simp [chainFrom] at hch
  | succ n ih =>
    intro cur best l hch hinv hq
    cases cur with
    | none =>
      simp only [chainFrom, Option.some_inj] at hch
      subst hch
      cases best with
      | none => simp at hq
      | some p => exact ⟨p.1, rfl, hinv p rfl⟩
    | some a =>
      cases hgb : getBlock st a with
      | none => rw [chainFrom, hgb] at hch; simp at hch
      | some b =>
        rw [chainFrom, hgb] at hch
        obtain ⟨l2, hl2, hcons⟩ := Option.map_eq_some'.1 hch
        subst hcons
        simp only [worst_fitAux, hgb]
        by_cases hsz : size ≤ b.size
        · rw [if_pos hsz]
          cases best with
          | none =>
            exact ih b.next_free (some (a, b.size)) l2 hl2
              (by rintro p hp; cases hp; rw [hgb]; rfl) (Or.inr rfl)
          | some p =>
            rcases p with ⟨pa, ps⟩
            dsimp only
            by_cases hcmp : ps ≤ b.size
            · rw [if_pos hcmp]
              exact ih b.next_free (some (a, b.size)) l2 hl2
                (by rintro q hqe; cases hqe; rw [hgb]; rfl) (Or.inr rfl)
            · rw [if_neg hcmp]
              exact ih b.next_free (some (pa, ps)) l2 hl2
                (by rintro q hqe; cases hqe; exact hinv (pa, ps) rfl) (Or.inr rfl)
        · rw [if_neg hsz]
          cases best with
          | none =>
            rcases hq with ⟨a2, ha2, b2, hgb2, hsz2⟩ | hb
            · rcases List.mem_cons.1 ha2 with rfl | hmem
              · rw [hgb] at hgb2
                cases hgb2
                exact absurd hsz2 hsz
              · exact ih b.next_free none l2 hl2 (by rintro p h; cases h)
                  (Or.inl ⟨a2, hmem, b2, hgb2, hsz2⟩)
            · simp at hb
          | some p =>
            exact ih b.next_free (some p) l2 hl2
              (by rintro q hqe; cases hqe; exact hinv p rfl) (Or.inr rfl)

theorem reuse_serves_hit (cfg : AllocCfg) (st : AllocState) (size fuel : Nat) (l : List Nat)
    (halgo : cfg.algo.getD "first_fit" = "first_fit" ∨ cfg.algo.getD "first_fit" = "best_fit"
      ∨ cfg.algo.getD "first_fit" = "worst_fit")
    (hch : chainFrom st st.free_head fuel = some l)
    (hq : ∃ a ∈ l, ∃ b, getBlock st a = some b ∧ size ≤ b.size) :
    ∃ a, (reuse cfg st size fuel).ret = some a := by
  rcases halgo with h | h | h
  · obtain ⟨a, hca, hsome⟩ := first_fit_finds st size fuel st.free_head l hch hq
    obtain ⟨b, hgb⟩ := Option.isSome_iff_exists.1 hsome
    have hca2 : first_fit st size fuel = some a := hca
    refine ⟨a, ?_⟩
    simp only [reuse, h, if_true, hca2, hgb]
  · obtain ⟨a, hca, hsome⟩ := best_fitAux_finds st size fuel st.free_head none l hch
      (fun p hp => nomatch hp) (Or.inl hq)
    obtain ⟨b, hgb⟩ := Option.isSome_iff_exists.1 hsome
    have hca2 : best_fit st size fuel = some a := hca
    have hne1 : (("best_fit" : String) = "first_fit") = False :=
      eq_false (by decide)
    refine ⟨a, ?_⟩
    simp only [reuse, h, hne1, if_false, if_true, hca2, hgb]
  · obtain ⟨a, hca, hsome⟩ := worst_fitAux_finds st size fuel st.free_head none l hch
      (fun p hp => nomatch hp) (Or.inl hq)
    obtain ⟨b, hgb⟩ := Option.isSome_iff_exists.1 hsome
    have hca2 : worst_fit st size fuel = some a := hca
    have hne1 : (("worst_fit" : String) = "first_fit") = False :=
      eq_false (by decide)
    have hne2 : (("worst_fit" : String) = "best_fit") = False :=
      eq_false (by decide)
    refine ⟨a, ?_⟩
    simp only [reuse, h, hne1, hne2, if_false, if_true, hca2, hgb]

/-- C6: whenever the free list (the completed `next_free` chain `l`) holds a
block whose size is at least the aligned total of the request, `allocate` under
any recognized placement strategy serves the request from the free list: the
call returns a non-null pointer and the region list is left unchanged — no new
region is mapped, whatever the OS would have answered. -/
theorem allocate_reuses_free_block (cfg : AllocCfg) (st : AllocState) (size fuel : Nat)
    (name : String) (os : Option Nat) (l : List Nat)
    (halgo : cfg.algo.getD "first_fit" = "first_fit" ∨ cfg.algo.getD "first_fit" = "best_fit"
      ∨ cfg.algo.getD "first_fit" = "worst_fit")
    (hch : chainFrom st st.free_head fuel = some l)
    (hq : ∃ a ∈ l, ∃ b, getBlock st a = some b ∧ alignedSz cfg size ≤ b.size) :
    (malloc_impl cfg st size name fuel os).st.regions = st.regions ∧
    (malloc_impl cfg st size name fuel os).ret.isSome := by
  obtain ⟨a, hret⟩ := reuse_serves_hit cfg st (alignedSz cfg size) fuel l halgo hch hq
  refine ⟨?_, ?_⟩
  · simp only [malloc_impl, hret]
    rcases hgx : getBlock (reuse cfg st (alignedSz cfg size) fuel).st a with _ | b2 <;>
      simp only [hgx] <;> split <;>
      simp only [applyMemset_regions, setBlock_regions, reuse_regions]
  · simp only [malloc_impl, hret, Option.isSome_some]

/-- C6 witness: the spec scenario.  After `allocate(100, "x")` (served from the
fresh region at 4096, payload pointer 4256) and `release` of that pointer, the
free list is `[4176, 4300]` (the freed 124-byte block, then the 3948-byte
tail); `allocate(50, "y")` under first-fit (aligned total 72 ≤ 124) reuses the
freed block: it returns the same payload pointer 4256 and the region list still
holds exactly the one region at 4096. -/
theorem allocate_reuses_free_block_witness :
    chainFrom scenSt scenSt.free_head 50 = some [4176, 4300] ∧
    scenSt.regions = [{ base := 4096, map_sz := 4096, region_number := 0 }] ∧
    (malloc_impl exCfg scenSt 50 "y" 50 none).st.regions = scenSt.regions ∧
    (malloc_impl exCfg scenSt 50 "y" 50 none).ret.isSome ∧
    (malloc_impl exCfg scenSt 50 "y" 50 none).ret = some 4256 ∧
    scen1.ret = some 4256 := by
  have hmain := allocate_reuses_free_block exCfg scenSt 50 50 "y" none [4176, 4300]
    (Or.inl rfl) (by decide)
    ⟨4176, by decide,
      { addr := 4176, size := 124, block_number := 0, free := true, name := "x",
        prev_block := none, next_block := some 4300, next_free := some 4300, region := 4096 },
      by decide, by decide⟩
  exact ⟨by decide, by decide, hmain.1, hmain.2, by decide, by decide⟩

/-! Claim C7: the block-ledger invariant.  Utility lemmas first. -/

theorem blockDisj_symm : ∀ {b c : MemBlock}, blockDisj b c → blockDisj c b :=
  fun h => Or.symm h

theorem covers_perm {lo hi : Nat} {l l2 : List MemBlock} (hp : l.Perm l2)
    (hc : Covers lo hi l) : Covers lo hi l2 := by
  obtain ⟨hin, hpw, hsum⟩ := hc
  refine ⟨fun b hb => hin b (hp.mem_iff.mpr hb), ?_, ?_⟩
  · exact (hp.pairwise_iff fun h => blockDisj_symm h).mp hpw
  · rw [sumSizes, ← (hp.map (·.size)).sum_eq]
    exact hsum

theorem filter_addr_eq_self (l : List MemBlock) (a : Nat) (h : a ∉ l.map (·.addr)) :
    l.filter (fun c => c.addr != a) = l := by
  apply List.filter_eq_self.mpr
  intro c hc
  have : c.addr ≠ a := fun he => h (List.mem_map.mpr ⟨c, hc, he⟩)
  simpa using this

theorem perm_blocks_cons_filter (l : List MemBlock) (a : Nat) (b : MemBlock)
    (hn : (l.map (·.addr)).Nodup) (h : l.find? (fun c => c.addr == a) = some b) :
    l.Perm (b :: l.filter (fun c => c.addr != a)) := by
  induction l with
  | nil => simp at h
  | cons c tl ih =>
    rw [List.map_cons, List.nodup_cons] at hn
    by_cases hca : c.addr = a
    · have hcb : c = b := by
        rw [List.find?_cons, (by simpa using hca : (c.addr == a) = true)] at h
        exact Option.some_inj.mp h
      subst hcb
      have hfe : tl.filter (fun x => x.addr != a) = tl := by
        apply filter_addr_eq_self
        rw [← hca]
        exact hn.1
      rw [List.filter_cons, (by simp [hca] : (c.addr != a) = false)]
      simp only [Bool.false_eq_true, if_false, hfe]
      exact List.Perm.refl _
    · have hfind : tl.find? (fun x => x.addr == a) = some b := by
        rw [List.find?_cons, (by simpa using hca : (c.addr == a) = false)] at h
        exact h
      have htl := ih hn.2 hfind
      rw [List.filter_cons, (by simpa using hca : (c.addr != a) = true)]
      simp only [if_true]
      exact (htl.cons c).trans (List.Perm.swap b c _)

theorem subW_eq_sub (x y : Nat) (hx : x < sizeW) (hy : y ≤ x) : subW x y = x - y := by
  unfold subW
  rw [Nat.mod_eq_of_lt (show y < sizeW by omega)]
  have hsplit : x + (sizeW - y) = sizeW + (x - y) := by omega
  rw [hsplit, Nat.add_mod_left]
  exact Nat.mod_eq_of_lt (show x - y < sizeW by omega)

theorem subW_eq_wrap (x y : Nat) (hx : x < sizeW) (hy : y < sizeW) (hxy : x < y) :
    subW x y = x + sizeW - y := by
  unfold subW
  rw [Nat.mod_eq_of_lt hy]
  have hsplit : x + (sizeW - y) = x + sizeW - y := by omega
  rw [hsplit]
  exact Nat.mod_eq_of_lt (show x + sizeW - y < sizeW by omega)

theorem mult_add_le_sizeW (m p : Nat) (hp : 0 < p) (hd : p ∣ m) (hds : p ∣ sizeW)
    (hm : m < sizeW) : m + p ≤ sizeW := by
  obtain ⟨k, hk⟩ := hd
  obtain ⟨n, hn⟩ := hds
  subst hk
  rw [hn] at hm ⊢
  have hkn : k < n := lt_of_mul_lt_mul_left hm (Nat.zero_le p)
  have : k + 1 ≤ n := hkn
  calc p * k + p = p * (k + 1) := by ring
    _ ≤ p * n := Nat.mul_le_mul_left p this

theorem align_cases (x p : Nat) (hp : 0 < p) (hpd : p ∣ sizeW) (hx : x < sizeW) :
    align x p % p = 0 ∧ align x p + p ≤ sizeW ∧ (align x p = 0 ∨ x ≤ align x p) := by
  have key : x / p * p + x % p = x := Nat.div_add_mod' x p
  have hmlt : x % p < p := Nat.mod_lt _ hp
  have hqd : p ∣ x / p * p := dvd_mul_left p (x / p)
  unfold align
  by_cases h : x % p = 0
  · rw [if_neg (by omega)]
    have hxx : x / p * p = x := by omega
    rw [hxx]
    refine ⟨h, mult_add_le_sizeW x p hp (Nat.dvd_of_mod_eq_zero h) hpd hx, Or.inr le_rfl⟩
  · rw [if_pos (by omega)]
    have hqle : x / p * p + p ≤ sizeW := by
      apply mult_add_le_sizeW _ p hp hqd hpd
      omega
    by_cases he : x / p * p + p = sizeW
    · rw [he, Nat.mod_self]
      exact ⟨Nat.zero_mod p, by omega, Or.inl rfl⟩
    · rw [Nat.mod_eq_of_lt (show x / p * p + p < sizeW by omega)]
      refine ⟨?_, ?_, Or.inr (by omega)⟩
      · have : x / p * p + p = (x / p + 1) * p := by ring
        rw [this, Nat.mul_mod_left]
      · apply mult_add_le_sizeW _ p hp ?_ hpd (by omega)
        exact Dvd.dvd.add hqd dvd_rfl

theorem align_le_add (x p : Nat) (hp : 0 < p) : align x p ≤ x + (p - 1) := by
  have key : x / p * p + x % p = x := Nat.div_add_mod' x p
  have hmlt : x % p < p := Nat.mod_lt _ hp
  unfold align
  by_cases h : x % p = 0
  · rw [if_neg (by omega)]
    omega
  · rw [if_pos (by omega)]
    calc (x / p * p + p) % sizeW ≤ x / p * p + p := Nat.mod_le _ _
      _ ≤ x + (p - 1) := by omega

theorem align_eq_zero_large (x p : Nat) (hp : 0 < p) (hpd : p ∣ sizeW) (hx : x < sizeW)
    (hx0 : 0 < x) (h : align x p = 0) : sizeW - p < x := by
  have key : x / p * p + x % p = x := Nat.div_add_mod' x p
  have hmlt : x % p < p := Nat.mod_lt _ hp
  have hqd : p ∣ x / p * p := dvd_mul_left p (x / p)
  unfold align at h
  by_cases hm : x % p = 0
  · rw [if_neg (by omega)] at h
    omega
  · rw [if_pos (by omega)] at h
    have hqle : x / p * p + p ≤ sizeW := by
      apply mult_add_le_sizeW _ p hp hqd hpd
      omega
    have : x / p * p + p = sizeW := by
      rcases Nat.lt_or_ge (x / p * p + p) sizeW with h2 | h2
      · rw [Nat.mod_eq_of_lt h2] at h
        omega
      · omega
    omega

theorem ledgerInv_ghost (cfg : AllocCfg) (st : AllocState) (fh : Option Nat) (ga gr : Nat)
    (h : LedgerInv cfg st) :
    LedgerInv cfg { blocks := st.blocks, regions := st.regions, free_head := fh,
                    g_allocations := ga, g_regions := gr } :=
  ⟨h.regsOk, h.regsDisj, h.owned, h.nodupa, h.covers, h.szlb⟩

theorem covers_cons_meta (lo hi : Nat) (X : List MemBlock) (b b2 : MemBlock)
    (ha : b2.addr = b.addr) (hs : b2.size = b.size)
    (hc : Covers lo hi (b :: X)) : Covers lo hi (b2 :: X) := by
  obtain ⟨hin, hpw, hsum⟩ := hc
  rw [List.pairwise_cons] at hpw
  refine ⟨?_, ?_, ?_⟩
  · intro c hcm
    rcases List.mem_cons.1 hcm with rfl | hcm2
    · rw [ha, hs]
      exact hin b (List.mem_cons_self _ _)
    · exact hin c (List.mem_cons.2 (Or.inr hcm2))
  · rw [List.pairwise_cons]
    refine ⟨fun c hcm => ?_, hpw.2⟩
    have := hpw.1 c hcm
    unfold blockDisj at this ⊢
    rw [ha, hs]
    exact this
  · rw [sumSizes, List.map_cons, List.sum_cons, hs]
    rw [sumSizes, List.map_cons, List.sum_cons] at hsum
    exact hsum

theorem ledgerInv_setBlock_meta (cfg : AllocCfg) (st : AllocState) (a : Nat) (b b2 : MemBlock)
    (hInv : LedgerInv cfg st) (hb : getBlock st a = some b)
    (ha : b2.addr = b.addr) (hs : b2.size = b.size) (hr : b2.region = b.region) :
    LedgerInv cfg (setBlock st b2) := by
  have hba : b.addr = a := getBlock_addr st a b hb
  have hmem : b ∈ st.blocks := List.mem_of_find?_eq_some hb
  have hperm : st.blocks.Perm (b :: st.blocks.filter (fun c => c.addr != a)) :=
    perm_blocks_cons_filter st.blocks a b hInv.nodupa hb
  have hblocks : (setBlock st b2).blocks
      = b2 :: st.blocks.filter (fun c => c.addr != a) := by
    show b2 :: st.blocks.filter (fun c => c.addr != b2.addr) = _
    rw [ha, hba]
  have hsubF : ∀ c ∈ st.blocks.filter (fun c => c.addr != a), c ∈ st.blocks :=
    fun c hc => (List.mem_filter.mp hc).1
  refine ⟨hInv.regsOk, hInv.regsDisj, ?_, ?_, ?_, ?_⟩
  · intro c hc
    rw [hblocks] at hc
    rcases List.mem_cons.1 hc with rfl | hc2
    · obtain ⟨r, hrm, hbr⟩ := hInv.owned b hmem
      exact ⟨r, hrm, by rw [hr, hbr]⟩
    · exact hInv.owned c (hsubF c hc2)
  · rw [hblocks, List.map_cons, List.nodup_cons]
    constructor
    · intro hmm
      obtain ⟨c, hcm, hce⟩ := List.mem_map.1 hmm
      have := (List.mem_filter.mp hcm).2
      rw [hce, ha, hba] at this
      simp at this
    · exact hInv.nodupa.sublist (List.Sublist.map _ (List.filter_sublist _))
  · intro r hrm
    have hfp := hperm.filter (fun c => c.region == r.base)
    have hcov0 := hInv.covers r hrm
    rw [show regionBlocks (setBlock st b2) r.base
        = (b2 :: st.blocks.filter (fun c => c.addr != a)).filter (fun c => c.region == r.base)
      from by unfold regionBlocks; rw [hblocks]]
    by_cases hreq : b.region = r.base
    · have hb2r : (b2.region == r.base) = true := by simp [hr, hreq]
      have hbr : (b.region == r.base) = true := by simp [hreq]
      rw [List.filter_cons, hb2r]
      simp only [if_true]
      have hsrc : Covers (regionLo cfg r) (regionHi cfg r)
          (b :: (st.blocks.filter (fun c => c.addr != a)).filter (fun c => c.region == r.base)) := by
        have := covers_perm hfp hcov0
        rw [List.filter_cons, hbr] at this
        simpa using this
      exact covers_cons_meta _ _ _ b b2 ha hs hsrc
    · have hb2r : (b2.region == r.base) = false := by simp [hr, hreq]
      have hbr : (b.region == r.base) = false := by simp [hreq]
      rw [List.filter_cons, hb2r]
      simp only [Bool.false_eq_true, if_false]
      have := covers_perm hfp hcov0
      rw [List.filter_cons, hbr] at this
      simpa using this
  · intro c hc
    rw [hblocks] at hc
    rcases List.mem_cons.1 hc with rfl | hc2
    · rw [hs]
      exact hInv.szlb b hmem
    · exact hInv.szlb c (hsubF c hc2)

theorem inv_block_bounds (cfg : AllocCfg) (st : AllocState) (hsane : SaneCfg cfg)
    (hInv : LedgerInv cfg st) (b : MemBlock) (hmem : b ∈ st.blocks) :
    b.size + cfg.page + cfg.HR ≤ sizeW ∧ b.addr + b.size + cfg.HR ≤ sizeW ∧ 0 < b.size := by
  obtain ⟨hHB, hHR, hpage, hpd, hplt⟩ := hsane
  obtain ⟨r, hrm, hbr⟩ := hInv.owned b hmem
  obtain ⟨hpg, hmod, hbase, hradd⟩ := hInv.regsOk r hrm
  have hcov := hInv.covers r hrm
  have hbm : b ∈ regionBlocks st r.base := List.mem_filter.mpr ⟨hmem, by simp [hbr]⟩
  obtain ⟨hlo, hhi, hpos⟩ := hcov.1 b hbm
  rw [regionLo] at hlo
  rw [regionHi] at hhi
  have hmlt : r.map_sz < sizeW := by omega
  have hm2 : r.map_sz + cfg.page ≤ sizeW :=
    mult_add_le_sizeW _ _ (by omega) (Nat.dvd_of_mod_eq_zero hmod) hpd hmlt
  refine ⟨by omega, by omega, hpos⟩

theorem interior_addr_fresh (cfg : AllocCfg) (st : AllocState) (hsane : SaneCfg cfg)
    (hInv : LedgerInv cfg st) (b : MemBlock) (hmem : b ∈ st.blocks) (x : Nat)
    (hx1 : b.addr < x) (hx2 : x < b.addr + b.size) :
    x ∉ st.blocks.map (·.addr) := by
  obtain ⟨hHB, hHR, hpage, hpd, hplt⟩ := hsane
  intro hmm
  obtain ⟨c, hcm, hce⟩ := List.mem_map.1 hmm
  obtain ⟨r, hrm, hbr⟩ := hInv.owned b hmem
  have hcov := hInv.covers r hrm
  have hbm : b ∈ regionBlocks st r.base := List.mem_filter.mpr ⟨hmem, by simp [hbr]⟩
  by_cases hcr : c.region = r.base
  · have hcmr : c ∈ regionBlocks st r.base := List.mem_filter.mpr ⟨hcm, by simp [hcr]⟩
    have hne : b ≠ c := by
      intro he
      rw [← he] at hce
      omega
    have hdisj := hcov.2.1.forall (fun {_ _} h => blockDisj_symm h) hbm hcmr hne
    obtain ⟨_, _, hcpos⟩ := hcov.1 c hcmr
    unfold blockDisj at hdisj
    omega
  · obtain ⟨r2, hrm2, hbr2⟩ := hInv.owned c hcm
    have hcov2 := hInv.covers r2 hrm2
    have hcmr2 : c ∈ regionBlocks st r2.base := List.mem_filter.mpr ⟨hcm, by simp [hbr2]⟩
    obtain ⟨hclo, hchi, hcpos⟩ := hcov2.1 c hcmr2
    obtain ⟨hblo, hbhi, hbpos⟩ := hcov.1 b hbm
    have hrne : r ≠ r2 := by
      intro he
      rw [← he] at hbr2
      exact hcr hbr2
    have hext := hInv.regsDisj.forall
      (fun {u v} h => h.symm) hrm hrm2 hrne
    rw [regionLo] at hclo hblo
    rw [regionHi] at hchi hbhi
    rcases hext with h | h <;> omega

theorem covers_split (lo hi : Nat) (b c d : MemBlock) (X : List MemBlock)
    (hc : Covers lo hi (b :: X)) (hca : c.addr = b.addr) (hda : d.addr = b.addr + c.size)
    (hsum : c.size + d.size = b.size) (hcpos : 0 < c.size) (hdpos : 0 < d.size) :
    Covers lo hi (c :: d :: X) := by
  obtain ⟨hin, hpw, hs⟩ := hc
  rw [List.pairwise_cons] at hpw
  obtain ⟨hblo, hbhi, hbpos⟩ := hin b (List.mem_cons_self _ _)
  refine ⟨?_, ?_, ?_⟩
  · intro e hem
    rcases List.mem_cons.1 hem with rfl | hem2
    · exact ⟨by omega, by omega, hcpos⟩
    rcases List.mem_cons.1 hem2 with rfl | hem3
    · exact ⟨by omega, by omega, hdpos⟩
    · exact hin e (List.mem_cons.2 (Or.inr hem3))
  · rw [List.pairwise_cons, List.pairwise_cons]
    refine ⟨?_, ?_, hpw.2⟩
    · intro e hem
      rcases List.mem_cons.1 hem with rfl | hem2
      · unfold blockDisj
        omega
      · have := hpw.1 e hem2
        unfold blockDisj at this ⊢
        omega
    · intro e hem
      have := hpw.1 e hem
      unfold blockDisj at this ⊢
      omega
  · rw [sumSizes] at hs ⊢
    simp only [List.map_cons, List.sum_cons] at hs ⊢
    omega

theorem split_block_eval (cfg : AllocCfg) (st : AllocState) (a t : Nat) (b : MemBlock)
    (hb : getBlock st a = some b) (hbsz : b.size < sizeW) (ht : t + cfg.HB < sizeW)
    (haddr : a + b.size < sizeW) (h1 : cfg.HB + 8 ≤ t) (h2 : t + cfg.HB + 8 ≤ b.size) :
    split_block cfg st (some a) t
      = ⟨setBlock
          { setBlock st
              { addr := a + (b.size - t), size := t, block_number := st.g_allocations,
                free := true, name := "", prev_block := some a, next_block := b.next_block,
                next_free := none, region := b.region } with
            g_allocations := st.g_allocations + 1 }
          { b with next_block := some (a + (b.size - t)), size := b.size - t },
        some (a + (b.size - t))⟩ := by
  have hmod : (t + cfg.HB) % sizeW = t + cfg.HB := Nat.mod_eq_of_lt ht
  have hsub : subW b.size t = b.size - t := subW_eq_sub _ _ hbsz (by omega)
  simp only [split_block, hb, hmod, hsub]
  rw [if_pos (show 0 < t ∧ t + cfg.HB < b.size by omega)]
  rw [if_neg (show ¬ t < cfg.HB + 8 by omega), if_neg (show ¬ b.size - t < cfg.HB + 8 by omega)]
  rw [Nat.mod_eq_of_lt (show a + (b.size - t) < sizeW by omega)]

theorem split_block_fail_eval (cfg : AllocCfg) (st : AllocState) (a t : Nat) (b : MemBlock)
    (hb : getBlock st a = some b) (hbsz : b.size < sizeW) (ht : t + cfg.HB < sizeW)
    (hcond : ¬ (cfg.HB + 8 ≤ t ∧ t + cfg.HB + 8 ≤ b.size)) :
    split_block cfg st (some a) t = ⟨st, none⟩ := by
  have htW : t < sizeW := by omega
  have hmod : (t + cfg.HB) % sizeW = t + cfg.HB := Nat.mod_eq_of_lt ht
  simp only [split_block, hb, hmod]
  by_cases h0 : 0 < t ∧ t + cfg.HB < b.size
  · rw [if_pos h0]
    obtain ⟨h0a, h0b⟩ := h0
    have hsub : subW b.size t = b.size - t := subW_eq_sub _ _ hbsz (by omega)
    simp only [hsub]
    by_cases ht8 : t < cfg.HB + 8
    · rw [if_pos ht8]
    · rw [if_neg ht8, if_pos (show b.size - t < cfg.HB + 8 by omega)]
  · rw [if_neg h0]

theorem ledgerInv_unlinkLoop (cfg : AllocCfg) (t fuel : Nat) :
    ∀ (st : AllocState) (cur : Option Nat), LedgerInv cfg st →
      LedgerInv cfg (unlinkLoop t st cur fuel) := by
  induction fuel with
  | zero => intro st cur h; cases cur <;> exact h
  | succ n ih =>
    intro st cur h
    cases cur with
    | none => exact h
    | some c =>
      rcases hgb : getBlock st c with _ | cb
      · simp only [unlinkLoop, hgb]
        exact h
      · simp only [unlinkLoop, hgb]
        split
        · exact ih _ _ (ledgerInv_setBlock_meta cfg st c cb _ h hgb rfl rfl rfl)
        · exact ih _ _ h

theorem ledgerInv_split_surgery (cfg : AllocCfg) (st : AllocState) (a : Nat) (b nb bu : MemBlock)
    (hInv : LedgerInv cfg st) (hsane : SaneCfg cfg) (hb : getBlock st a = some b)
    (hnb_addr : nb.addr = a + bu.size) (hbu_addr : bu.addr = b.addr)
    (hbu_region : bu.region = b.region) (hnb_region : nb.region = b.region)
    (hsum : bu.size + nb.size = b.size)
    (hbu_lb : cfg.HB ≤ bu.size) (hnb_lb : cfg.HB ≤ nb.size)
    (hbu_pos : 0 < bu.size) (hnb_pos : 0 < nb.size) (ga : Nat) :
    LedgerInv cfg (setBlock { setBlock st nb with g_allocations := ga } bu) := by
  have hba : b.addr = a := getBlock_addr st a b hb
  have hmem : b ∈ st.blocks := List.mem_of_find?_eq_some hb
  have hfresh : nb.addr ∉ st.blocks.map (·.addr) := by
    rw [hnb_addr]
    exact interior_addr_fresh cfg st hsane hInv b hmem _ (by omega) (by omega)
  have he1 : (setBlock st nb).blocks = nb :: st.blocks := by
    show nb :: st.blocks.filter (fun c => c.addr != nb.addr) = nb :: st.blocks
    rw [filter_addr_eq_self st.blocks nb.addr hfresh]
  have hgane : ({ setBlock st nb with g_allocations := ga }).blocks = nb :: st.blocks := he1
  have he2 : (setBlock { setBlock st nb with g_allocations := ga } bu).blocks
      = bu :: nb :: st.blocks.filter (fun c => c.addr != a) := by
    rw [setBlock_blocks, hgane, hbu_addr, hba, List.filter_cons]
    have hnbt : (nb.addr != a) = true := by
      simp only [bne_iff_ne, ne_eq]
      omega
    rw [hnbt]
    simp only [if_true]
  have hperm : st.blocks.Perm (b :: st.blocks.filter (fun c => c.addr != a)) :=
    perm_blocks_cons_filter st.blocks a b hInv.nodupa hb
  have hsubF : ∀ c ∈ st.blocks.filter (fun c => c.addr != a), c ∈ st.blocks :=
    fun c hc => (List.mem_filter.mp hc).1
  refine ⟨hInv.regsOk, hInv.regsDisj, ?_, ?_, ?_, ?_⟩
  · intro c hc
    rw [he2] at hc
    rcases List.mem_cons.1 hc with rfl | hc2
    · obtain ⟨r, hrm, hbr⟩ := hInv.owned b hmem
      exact ⟨r, hrm, by rw [hbu_region, hbr]⟩
    rcases List.mem_cons.1 hc2 with rfl | hc3
    · obtain ⟨r, hrm, hbr⟩ := hInv.owned b hmem
      exact ⟨r, hrm, by rw [hnb_region, hbr]⟩
    · exact hInv.owned c (hsubF c hc3)
  · rw [he2, List.map_cons, List.map_cons]
    have hFn : ((st.blocks.filter (fun c => c.addr != a)).map (·.addr)).Nodup :=
      hInv.nodupa.sublist (List.Sublist.map _ (List.filter_sublist _))
    have hFa : a ∉ (st.blocks.filter (fun c => c.addr != a)).map (·.addr) := by
      intro hmm2
      obtain ⟨c, hcm, hce⟩ := List.mem_map.1 hmm2
      have := (List.mem_filter.mp hcm).2
      rw [hce] at this
      simp at this
    have hFnb : nb.addr ∉ (st.blocks.filter (fun c => c.addr != a)).map (·.addr) := by
      intro hmm2
      apply hfresh
      obtain ⟨c, hcm, hce⟩ := List.mem_map.1 hmm2
      exact List.mem_map.mpr ⟨c, hsubF c hcm, hce⟩
    rw [List.nodup_cons, List.nodup_cons]
    refine ⟨?_, hFnb, hFn⟩
    rw [List.mem_cons]
    push_neg
    refine ⟨by rw [hbu_addr, hba]; omega, ?_⟩
    rw [hbu_addr, hba]
    exact hFa
  · intro r hrm
    have hfp := hperm.filter (fun c => c.region == r.base)
    have hcov0 := hInv.covers r hrm
    rw [show regionBlocks (setBlock { setBlock st nb with g_allocations := ga } bu) r.base
        = (bu :: nb :: st.blocks.filter (fun c => c.addr != a)).filter
            (fun c => c.region == r.base)
      from by unfold regionBlocks; rw [he2]]
    by_cases hreq : b.region = r.base
    · have hbur : (bu.region == r.base) = true := by simp [hbu_region, hreq]
      have hnbr : (nb.region == r.base) = true := by simp [hnb_region, hreq]
      have hbr : (b.region == r.base) = true := by simp [hreq]
      rw [List.filter_cons, hbur]
      simp only [if_true]
      rw [List.filter_cons, hnbr]
      simp only [if_true]
      have hsrc : Covers (regionLo cfg r) (regionHi cfg r)
          (b :: (st.blocks.filter (fun c => c.addr != a)).filter
            (fun c => c.region == r.base)) := by
        have := covers_perm hfp hcov0
        rw [List.filter_cons, hbr] at this
        simpa using this
      refine covers_split _ _ b bu nb _ hsrc hbu_addr ?_ hsum hbu_pos hnb_pos
      rw [hnb_addr, hba]
    · have hbur : (bu.region == r.base) = false := by simp [hbu_region, hreq]
      have hnbr : (nb.region == r.base) = false := by simp [hnb_region, hreq]
      have hbr : (b.region == r.base) = false := by simp [hreq]
      rw [List.filter_cons, hbur]
      simp only [Bool.false_eq_true, if_false]
      rw [List.filter_cons, hnbr]
      simp only [Bool.false_eq_true, if_false]
      have := covers_perm hfp hcov0
      rw [List.filter_cons, hbr] at this
      simpa using this
  · intro c hc
    rw [he2] at hc
    rcases List.mem_cons.1 hc with rfl | hc2
    · exact hbu_lb
    rcases List.mem_cons.1 hc2 with rfl | hc3
    · exact hnb_lb
    · exact hInv.szlb c (hsubF c hc3)

theorem ledgerInv_split (cfg : AllocCfg) (st : AllocState) (a t : Nat) (b : MemBlock)
    (hsane : SaneCfg cfg) (hInv : LedgerInv cfg st) (hb : getBlock st a = some b)
    (hts : t ≤ b.size) :
    LedgerInv cfg (split_block cfg st (some a) t).st := by
  have hba : b.addr = a := getBlock_addr st a b hb
  have hmem : b ∈ st.blocks := List.mem_of_find?_eq_some hb
  obtain ⟨hsz1, hsz2, hsz3⟩ := inv_block_bounds cfg st hsane hInv b hmem
  have hHB : 0 < cfg.HB := hsane.1
  have hHR : 0 < cfg.HR := hsane.2.1
  have hpage : cfg.HB + cfg.HR + 8 ≤ cfg.page := hsane.2.2.1
  have hbsz : b.size < sizeW := by omega
  have ht : t + cfg.HB < sizeW := by omega
  have haddr : a + b.size < sizeW := by omega
  by_cases hcond : cfg.HB + 8 ≤ t ∧ t + cfg.HB + 8 ≤ b.size
  · obtain ⟨h1, h2⟩ := hcond
    rw [split_block_eval cfg st a t b hb hbsz ht haddr h1 h2]
    exact ledgerInv_split_surgery cfg st a b
      { addr := a + (b.size - t), size := t, block_number := st.g_allocations,
        free := true, name := "", prev_block := some a, next_block := b.next_block,
        next_free := none, region := b.region }
      { b with next_block := some (a + (b.size - t)), size := b.size - t }
      hInv hsane hb rfl rfl rfl rfl (by dsimp only; omega) (by dsimp only; omega)
      (by dsimp only; omega) (by dsimp only; omega) (by dsimp only; omega)
      (st.g_allocations + 1)
  · rw [split_block_fail_eval cfg st a t b hb hbsz ht hcond]
    exact hInv

theorem first_fitAux_qualifies (st : AllocState) (size : Nat) :
    ∀ (fuel : Nat) (cur : Option Nat) (a : Nat),
      first_fitAux st size cur fuel = some a →
      ∃ b, getBlock st a = some b ∧ size ≤ b.size := by
  intro fuel
  induction fuel with
  | zero => intro cur a h; cases cur <;> simp [first_fitAux] at h
  | succ n ih =>
    intro cur a h
    cases cur with
    | none => simp [first_fitAux] at h
    | some c =>
      rcases hgb : getBlock st c with _ | b
      · simp [first_fitAux, hgb] at h
      · simp only [first_fitAux, hgb] at h
        by_cases hsz : size ≤ b.size
        · rw [if_pos hsz] at h
          obtain rfl := Option.some_inj.mp h
          exact ⟨b, hgb, hsz⟩
        · rw [if_neg hsz] at h
          exact ih _ _ h

theorem best_fitAux_qualifies (st : AllocState) (size : Nat) :
    ∀ (fuel : Nat) (cur : Option Nat) (best : Option (Nat × Nat)) (a : Nat),
      (∀ p, best = some p → ∃ b, getBlock st p.1 = some b ∧ size ≤ b.size) →
      best_fitAux st size cur best fuel = some a →
      ∃ b, getBlock st a = some b ∧ size ≤ b.size := by
  intro fuel
  induction fuel with
  | zero =>
    intro cur best a hinv h
    cases cur with
    | none =>
      obtain ⟨p, hp, hpa⟩ := Option.map_eq_some'.1 h
      subst hpa
      exact hinv p hp
    | some c => simp [best_fitAux] at h
  | succ n ih =>
    intro cur best a hinv h
    cases cur with
    | none =>
      obtain ⟨p, hp, hpa⟩ := Option.map_eq_some'.1 h
      subst hpa
      exact hinv p hp
    | some c =>
      rcases hgb : getBlock st c with _ | b
      · simp [best_fitAux, hgb] at h
      · simp only [best_fitAux, hgb] at h
        by_cases hsz : size ≤ b.size
        · rw [if_pos hsz] at h
          refine ih _ _ _ ?_ h
          rcases best with _ | p
          · rintro p hp
            cases hp
            exact ⟨b, hgb, hsz⟩
          · rcases p with ⟨pa, ps⟩
            dsimp only at *
            intro q hq
            by_cases hcmp : b.size ≤ ps
            · rw [if_pos hcmp] at hq
              cases hq
              exact ⟨b, hgb, hsz⟩
            · rw [if_neg hcmp] at hq
              cases hq
              exact hinv (pa, ps) rfl
        · rw [if_neg hsz] at h
          exact ih _ _ _ hinv h

theorem worst_fitAux_qualifies (st : AllocState) (size : Nat) :
    ∀ (fuel : Nat) (cur : Option Nat) (best : Option (Nat × Nat)) (a : Nat),
      (∀ p, best = some p → ∃ b, getBlock st p.1 = some b ∧ size ≤ b.size) →
      worst_fitAux st size cur best fuel = some a →
      ∃ b, getBlock st a = some b ∧ size ≤ b.size := by
  intro fuel
  induction fuel with
  | zero =>
    intro cur best a hinv h
    cases cur with
    | none =>
      obtain ⟨p, hp, hpa⟩ := Option.map_eq_some'.1 h
      subst hpa
      exact hinv p hp
    | some c => simp [worst_fitAux] at h
  | succ n ih =>
    intro cur best a hinv h
    cases cur with
    | none =>
      obtain ⟨p, hp, hpa⟩ := Option.map_eq_some'.1 h
      subst hpa
      exact hinv p hp
    | some c =>
      rcases hgb : getBlock st c with _ | b
      · simp [worst_fitAux, hgb] at h
      · simp only [worst_fitAux, hgb] at h
        by_cases hsz : size ≤ b.size
        · rw [if_pos hsz] at h
          refine ih _ _ _ ?_ h
          rcases best with _ | p
          · rintro p hp
            cases hp
            exact ⟨b, hgb, hsz⟩
          · rcases p with ⟨pa, ps⟩
            dsimp only at *
            intro q hq
            by_cases hcmp : ps ≤ b.size
            · rw [if_pos hcmp] at hq
              cases hq
              exact ⟨b, hgb, hsz⟩
            · rw [if_neg hcmp] at hq
              cases hq
              exact hinv (pa, ps) rfl
        · rw [if_neg hsz] at h
          exact ih _ _ _ hinv h

theorem ledgerInv_unlink_stage (cfg : AllocCfg) (st1 : AllocState) (a fuel : Nat)
    (hInv1 : LedgerInv cfg st1) :
    LedgerInv cfg (if st1.free_head = some a then { st1 with free_head := nfOf st1 a }
                   else unlinkLoop a st1 st1.free_head fuel) := by
  by_cases h : st1.free_head = some a
  · rw [if_pos h]
    exact ledgerInv_ghost cfg st1 _ _ _ hInv1
  · rw [if_neg h]
    exact ledgerInv_unlinkLoop cfg a fuel st1 _ hInv1

theorem ledgerInv_push (cfg : AllocCfg) (st2 : AllocState) (ret : Option Nat)
    (hInv2 : LedgerInv cfg st2) :
    LedgerInv cfg (if st2.free_head = none then { st2 with free_head := ret }
        else match ret with
          | none => st2
          | some ta =>
            match getBlock st2 ta with
            | none => st2
            | some tb => { setBlock st2 { tb with next_free := st2.free_head } with
                           free_head := some ta }) := by
  by_cases hfh : st2.free_head = none
  · rw [if_pos hfh]
    exact ledgerInv_ghost cfg st2 _ _ _ hInv2
  · rw [if_neg hfh]
    rcases ret with _ | ta
    · exact hInv2
    · rcases hgt : getBlock st2 ta with _ | tb
      · simp only [hgt]
        exact hInv2
      · simp only [hgt]
        exact ledgerInv_ghost cfg _ _ _ _
          (ledgerInv_setBlock_meta cfg st2 ta tb _ hInv2 hgt rfl rfl rfl)

theorem ledgerInv_mark (cfg : AllocCfg) (st3 : AllocState) (a : Nat)
    (hInv3 : LedgerInv cfg st3) :
    LedgerInv cfg (match getBlock st3 a with
      | none => st3
      | some b2 => setBlock st3 { b2 with free := false }) := by
  rcases hg : getBlock st3 a with _ | b2
  · simp only [hg]
    exact hInv3
  · simp only [hg]
    exact ledgerInv_setBlock_meta cfg st3 a b2 _ hInv3 hg rfl rfl rfl

theorem ledgerInv_reuse (cfg : AllocCfg) (st : AllocState) (size fuel : Nat)
    (hsane : SaneCfg cfg) (hInv : LedgerInv cfg st) :
    LedgerInv cfg (reuse cfg st size fuel).st := by
  have hqual : ∀ a, (if cfg.algo.getD "first_fit" = "first_fit" then first_fit st size fuel
      else if cfg.algo.getD "first_fit" = "best_fit" then best_fit st size fuel
      else if cfg.algo.getD "first_fit" = "worst_fit" then worst_fit st size fuel
      else none) = some a → ∃ b, getBlock st a = some b ∧ size ≤ b.size := by
    intro a h
    by_cases h1 : cfg.algo.getD "first_fit" = "first_fit"
    · rw [if_pos h1] at h
      exact first_fitAux_qualifies st size fuel st.free_head a h
    · rw [if_neg h1] at h
      by_cases h2 : cfg.algo.getD "first_fit" = "best_fit"
      · rw [if_pos h2] at h
        exact best_fitAux_qualifies st size fuel st.free_head none a (fun p hp => nomatch hp) h
      · rw [if_neg h2] at h
        by_cases h3 : cfg.algo.getD "first_fit" = "worst_fit"
        · rw [if_pos h3] at h
          exact worst_fitAux_qualifies st size fuel st.free_head none a (fun p hp => nomatch hp) h
        · rw [if_neg h3] at h
          exact absurd h (by simp)
  simp only [reuse]
  split
  · exact hInv
  · next a heq =>
    split
    · exact hInv
    · next b heq2 =>
      obtain ⟨b2, hgb2, hsz2⟩ := hqual a heq
      rw [heq2] at hgb2
      obtain rfl := Option.some_inj.mp hgb2
      have hmem : b ∈ st.blocks := List.mem_of_find?_eq_some heq2
      obtain ⟨hb1, hb2b, hb3⟩ := inv_block_bounds cfg st hsane hInv b hmem
      have hsub : subW b.size size = b.size - size :=
        subW_eq_sub _ _ (by have hHR := hsane.2.1; omega) hsz2
      have hInv1 : LedgerInv cfg (split_block cfg st (some a) (subW b.size size)).st :=
        ledgerInv_split cfg st a _ b hsane hInv heq2 (by rw [hsub]; omega)
      exact ledgerInv_mark cfg _ a
        (ledgerInv_push cfg _ _ (ledgerInv_unlink_stage cfg _ a fuel hInv1))

theorem reuse_ret_none_st (cfg : AllocCfg) (st : AllocState) (size fuel : Nat)
    (h : (reuse cfg st size fuel).ret = none) : (reuse cfg st size fuel).st = st := by
  simp only [reuse] at h ⊢
  split at h
  · rfl
  · split at h
    · rfl
    · simp at h

theorem mapSz_bounds (cfg : AllocCfg) (size : Nat) (hsane : SaneCfg cfg)
    (h0 : 0 < mapSz cfg size) :
    cfg.page ≤ mapSz cfg size ∧ mapSz cfg size % cfg.page = 0 ∧
    mapSz cfg size + cfg.page ≤ sizeW := by
  have hpp : 0 < cfg.page := by
    have h1 := hsane.1
    have h2 := hsane.2.1
    have h3 := hsane.2.2.1
    omega
  have hdef : mapSz cfg size = align ((alignedSz cfg size + cfg.HR) % sizeW) cfg.page := rfl
  obtain ⟨hm, hle, _⟩ := align_cases ((alignedSz cfg size + cfg.HR) % sizeW) cfg.page hpp
    hsane.2.2.2.1 (Nat.mod_lt _ (by decide))
  rw [← hdef] at hm hle
  exact ⟨Nat.le_of_dvd h0 (Nat.dvd_of_mod_eq_zero hm), hm, hle⟩

theorem miss_actual_cases (cfg : AllocCfg) (size : Nat) (hsane : SaneCfg cfg)
    (h0 : 0 < mapSz cfg size) :
    actualSz cfg size ≤ mapSz cfg size - cfg.HR ∨
    mapSz cfg size - cfg.HR + cfg.HB < actualSz cfg size := by
  have hHB := hsane.1
  have hHR := hsane.2.1
  have hpage := hsane.2.2.1
  have hpd := hsane.2.2.2.1
  have hpp : 0 < cfg.page := by omega
  have hWpos : 0 < sizeW := by decide
  have hA : actualSz cfg size < sizeW := Nat.mod_lt _ hWpos
  have hdef : mapSz cfg size = align ((alignedSz cfg size + cfg.HR) % sizeW) cfg.page := rfl
  have hdef2 : alignedSz cfg size = align (actualSz cfg size) 8 := rfl
  obtain ⟨hmapmod, hmaple, hmapor⟩ := align_cases ((alignedSz cfg size + cfg.HR) % sizeW)
    cfg.page hpp hpd (Nat.mod_lt _ hWpos)
  rw [← hdef] at hmapmod hmaple hmapor
  have hpageLe : cfg.page ≤ mapSz cfg size := Nat.le_of_dvd h0 (Nat.dvd_of_mod_eq_zero hmapmod)
  have h8d : (8 : Nat) ∣ sizeW := by decide
  obtain ⟨halm, halle, halor⟩ := align_cases (actualSz cfg size) 8 (by omega) h8d hA
  rw [← hdef2] at halm halle halor
  have hal7 : alignedSz cfg size ≤ actualSz cfg size + 7 := by
    have := align_le_add (actualSz cfg size) 8 (by omega)
    rw [← hdef2] at this
    omega
  rcases halor with hz | hge
  · by_cases hA0 : actualSz cfg size = 0
    · left
      omega
    · have hbig : sizeW - 8 < actualSz cfg size := by
        have := align_eq_zero_large (actualSz cfg size) 8 (by omega) h8d hA (by omega)
          (by rw [← hdef2]; exact hz)
        omega
      right
      omega
  · by_cases hw : alignedSz cfg size + cfg.HR < sizeW
    · have hargeq : (alignedSz cfg size + cfg.HR) % sizeW = alignedSz cfg size + cfg.HR :=
        Nat.mod_eq_of_lt hw
      rw [hargeq] at hmapor
      rcases hmapor with hz2 | hge2
      · omega
      · left
        omega
    · right
      omega

theorem ledgerInv_new_region (cfg : AllocCfg) (st : AllocState)
    (base map_sz rn gr : Nat) (b0 : MemBlock)
    (hsane : SaneCfg cfg) (hInv : LedgerInv cfg st)
    (hpg : cfg.page ≤ map_sz) (hmod : map_sz % cfg.page = 0) (hlt : map_sz + cfg.page ≤ sizeW)
    (hbase : 0 < base) (hbd : base + map_sz + cfg.HB ≤ sizeW)
    (hfresh : ∀ r ∈ st.regions, base + map_sz ≤ r.base ∨ r.base + r.map_sz ≤ base)
    (haddr : b0.addr = base + cfg.HB) (hbsz : b0.size = map_sz - cfg.HR)
    (hreg : b0.region = base) :
    LedgerInv cfg
      (setBlock { st with regions := st.regions ++ [⟨base, map_sz, rn⟩], g_regions := gr } b0) := by
  have hHB := hsane.1
  have hHR := hsane.2.1
  have hpage := hsane.2.2.1
  have hnotold : ∀ r ∈ st.regions, r.base ≠ base := by
    intro r hrm he
    obtain ⟨hpg2, _, _, _⟩ := hInv.regsOk r hrm
    rcases hfresh r hrm with h | h <;> omega
  have hafresh : b0.addr ∉ st.blocks.map (·.addr) := by
    intro hmm
    obtain ⟨c, hcm, hce⟩ := List.mem_map.1 hmm
    obtain ⟨r, hrm, hbr⟩ := hInv.owned c hcm
    have hcov := hInv.covers r hrm
    have hcmr : c ∈ regionBlocks st r.base := List.mem_filter.mpr ⟨hcm, by simp [hbr]⟩
    obtain ⟨hclo, hchi, hcpos⟩ := hcov.1 c hcmr
    rw [regionLo] at hclo
    rw [regionHi] at hchi
    rw [haddr] at hce
    rcases hfresh r hrm with h | h <;> omega
  have hblocks :
      (setBlock { st with regions := st.regions ++ [⟨base, map_sz, rn⟩], g_regions := gr }
        b0).blocks = b0 :: st.blocks := by
    rw [setBlock_blocks]
    show b0 :: st.blocks.filter (fun c => c.addr != b0.addr) = _
    rw [filter_addr_eq_self st.blocks _ hafresh]
  have hnoblock : ∀ c ∈ st.blocks, c.region ≠ base := by
    intro c hcm he
    obtain ⟨r, hrm, hbr⟩ := hInv.owned c hcm
    rw [he] at hbr
    exact hnotold r hrm hbr.symm
  have hregs :
      (setBlock { st with regions := st.regions ++ [⟨base, map_sz, rn⟩], g_regions := gr }
        b0).regions = st.regions ++ [⟨base, map_sz, rn⟩] := rfl
  refine ⟨?_, ?_, ?_, ?_, ?_, ?_⟩
  · intro r hrm
    rcases List.mem_append.1 hrm with h | h
    · exact hInv.regsOk r h
    · rcases List.mem_singleton.1 h with rfl
      exact ⟨hpg, hmod, hbase, hbd⟩
  · rw [hregs, List.pairwise_append]
    refine ⟨hInv.regsDisj, List.pairwise_singleton _ _, ?_⟩
    intro r hrm s hsm
    rcases List.mem_singleton.1 hsm with rfl
    exact (hfresh r hrm).symm
  · intro c hc
    rw [hblocks] at hc
    rcases List.mem_cons.1 hc with rfl | hc2
    · exact ⟨⟨base, map_sz, rn⟩, List.mem_append.2 (Or.inr (List.mem_singleton.2 rfl)), hreg⟩
    · obtain ⟨r, hrm, hbr⟩ := hInv.owned c hc2
      exact ⟨r, List.mem_append.2 (Or.inl hrm), hbr⟩
  · rw [hblocks, List.map_cons, List.nodup_cons]
    exact ⟨hafresh, hInv.nodupa⟩
  · intro r hrm
    have hrb : regionBlocks
        (setBlock { st with regions := st.regions ++ [⟨base, map_sz, rn⟩], g_regions := gr } b0)
        r.base = (b0 :: st.blocks).filter (fun c => c.region == r.base) := by
      unfold regionBlocks
      rw [hblocks]
    rw [hrb]
    rcases List.mem_append.1 hrm with h | h
    · have hrne : r.base ≠ base := hnotold r h
      rw [List.filter_cons, (show (b0.region == r.base) = false by
        rw [hreg]; exact beq_false_of_ne (Ne.symm hrne))]
      simp only [Bool.false_eq_true, if_false]
      exact hInv.covers r h
    · rcases List.mem_singleton.1 h with rfl
      rw [List.filter_cons, (show (b0.region == (⟨base, map_sz, rn⟩ : MemRegion).base) = true by
        rw [hreg]; exact beq_self_eq_true base)]
      simp only [if_true]
      have hrest : st.blocks.filter
          (fun c => c.region == (⟨base, map_sz, rn⟩ : MemRegion).base) = [] := by
        rw [List.filter_eq_nil]
        intro c hcm
        have := hnoblock c hcm
        simpa using this
      rw [hrest]
      refine ⟨?_, List.pairwise_singleton _ _, ?_⟩
      · intro c hcm
        rcases List.mem_singleton.1 hcm with rfl
        rw [regionLo, regionHi]
        dsimp only
        rw [haddr, hbsz]
        refine ⟨le_rfl, by omega, by omega⟩
      · rw [sumSizes, regionLo, regionHi]
        dsimp only
        simp only [List.map_cons, List.map_nil, List.sum_cons, List.sum_nil, hbsz]
        omega
  · intro c hc
    rw [hblocks] at hc
    rcases List.mem_cons.1 hc with rfl | hc2
    · rw [hbsz]
      omega
    · exact hInv.szlb c hc2

theorem ledgerInv_miss (cfg : AllocCfg) (st : AllocState) (size : Nat) (name : String)
    (base : Nat) (hsane : SaneCfg cfg) (hInv : LedgerInv cfg st)
    (h0 : 0 < mapSz cfg size) (hbpos : 0 < base)
    (hbd : base + mapSz cfg size + cfg.HB ≤ sizeW)
    (hfr : ∀ r ∈ st.regions, base + mapSz cfg size ≤ r.base ∨ r.base + r.map_sz ≤ base) :
    LedgerInv cfg
      (let map_sz := mapSz cfg size
       let region : MemRegion := { base := base, map_sz := map_sz, region_number := st.g_regions }
       let st1 := { st with regions := st.regions ++ [region], g_regions := st.g_regions + 1 }
       let ba := base + cfg.HB
       let b0 : MemBlock :=
         { addr := ba, size := subW map_sz cfg.HR, block_number := st1.g_allocations,
           free := false, name := name, prev_block := none, next_block := none,
           next_free := none, region := base }
       let st2 := { setBlock st1 b0 with g_allocations := st1.g_allocations + 1 }
       let sp := split_block cfg st2 (some ba) (subW b0.size (actualSz cfg size))
       let st3 := sp.st
       if st3.free_head = none then { st3 with free_head := sp.ret }
       else
         match sp.ret with
         | none => st3
         | some ta =>
           match getBlock st3 ta with
           | none => st3
           | some tb =>
             { setBlock st3 { tb with next_free := st3.free_head } with
               free_head := some ta }) := by
  have hHB := hsane.1
  have hHR := hsane.2.1
  have hpage := hsane.2.2.1
  obtain ⟨hpg, hmod, hlt⟩ := mapSz_bounds cfg size hsane h0
  have hsubHR : subW (mapSz cfg size) cfg.HR = mapSz cfg size - cfg.HR :=
    subW_eq_sub _ _ (by omega) (by omega)
  have hA : actualSz cfg size < sizeW := Nat.mod_lt _ (by decide)
  have hInvNR := ledgerInv_new_region cfg st base (mapSz cfg size) st.g_regions
    (st.g_regions + 1)
    { addr := base + cfg.HB, size := subW (mapSz cfg size) cfg.HR,
      block_number := st.g_allocations, free := false, name := name, prev_block := none,
      next_block := none, next_free := none, region := base }
    hsane hInv hpg hmod hlt hbpos hbd hfr rfl hsubHR rfl
  dsimp only
  have hInv2 : LedgerInv cfg
      { setBlock
          { st with
            regions :=
              st.regions ++ [{ base := base, map_sz := mapSz cfg size, region_number := st.g_regions }],
            g_regions := st.g_regions + 1 }
          { addr := base + cfg.HB, size := subW (mapSz cfg size) cfg.HR,
            block_number := st.g_allocations, free := false, name := name, prev_block := none,
            next_block := none, next_free := none, region := base } with
        g_allocations := st.g_allocations + 1 } :=
    ledgerInv_ghost cfg _ _ _ _ hInvNR
  have hgb0 : getBlock
      { setBlock
          { st with
            regions :=
              st.regions ++ [{ base := base, map_sz := mapSz cfg size, region_number := st.g_regions }],
            g_regions := st.g_regions + 1 }
          { addr := base + cfg.HB, size := subW (mapSz cfg size) cfg.HR,
            block_number := st.g_allocations, free := false, name := name, prev_block := none,
            next_block := none, next_free := none, region := base } with
        g_allocations := st.g_allocations + 1 } (base + cfg.HB)
      = some { addr := base + cfg.HB, size := subW (mapSz cfg size) cfg.HR,
               block_number := st.g_allocations, free := false, name := name,
               prev_block := none, next_block := none, next_free := none,
               region := base } :=
    getBlock_setBlock_self _ _
  rcases miss_actual_cases cfg size hsane h0 with hle | hfar
  · have hsub2 : subW (mapSz cfg size - cfg.HR) (actualSz cfg size)
        = mapSz cfg size - cfg.HR - actualSz cfg size := subW_eq_sub _ _ (by omega) hle
    refine ledgerInv_push cfg _ _ (ledgerInv_split cfg _ (base + cfg.HB) _ _ hsane hInv2 hgb0 ?_)
    dsimp only
    rw [hsubHR, hsub2]
    omega
  · have hwrap : subW (mapSz cfg size - cfg.HR) (actualSz cfg size)
        = mapSz cfg size - cfg.HR + sizeW - actualSz cfg size :=
      subW_eq_wrap _ _ (by omega) hA (by omega)
    have hfail := split_block_fail_eval cfg _ (base + cfg.HB) _ _ hgb0
      (by dsimp only; rw [hsubHR]; omega)
      (show subW (subW (mapSz cfg size) cfg.HR) (actualSz cfg size) + cfg.HB < sizeW by
        rw [hsubHR, hwrap]; omega)
      (by
        rw [show ({ addr := base + cfg.HB, size := subW (mapSz cfg size) cfg.HR,
                    block_number := st.g_allocations, free := false, name := name,
                    prev_block := none, next_block := none, next_free := none,
                    region := base } : MemBlock).size
          = subW (mapSz cfg size) cfg.HR from rfl, hsubHR, hwrap]
        rintro ⟨h1, h2⟩
        omega)
    rw [hfail]
    exact ledgerInv_push cfg _ _ hInv2

theorem ledgerInv_malloc (cfg : AllocCfg) (st : AllocState) (size : Nat) (name : String)
    (fuel : Nat) (os : Option Nat) (hsane : SaneCfg cfg) (hscr : cfg.scribble ≠ 1)
    (hInv : LedgerInv cfg st) (hos : OsOk cfg st size os) :
    LedgerInv cfg (malloc_impl cfg st size name fuel os).st := by
  have hIr := ledgerInv_reuse cfg st (alignedSz cfg size) fuel hsane hInv
  simp only [malloc_impl, if_neg hscr]
  split
  · next a heq =>
    rcases hg : getBlock (reuse cfg st (alignedSz cfg size) fuel).st a with _ | b
    · simp only [hg]
      exact hIr
    · simp only [hg]
      exact ledgerInv_setBlock_meta cfg _ a b _ hIr hg rfl rfl rfl
  · next heq =>
    rcases os with _ | base
    · exact hIr
    · have hst : (reuse cfg st (alignedSz cfg size) fuel).st = st :=
        reuse_ret_none_st cfg st _ fuel heq
      rw [hst]
      obtain ⟨h0, _, hbpos, hbd, hfr⟩ := hos
      exact ledgerInv_miss cfg st size name base hsane hInv h0 hbpos hbd hfr

theorem ledgerInv_free (cfg : AllocCfg) (st : AllocState) (ptr : Option Nat)
    (hInv : LedgerInv cfg st) : LedgerInv cfg (free_impl cfg st ptr).st := by
  rcases ptr with _ | p
  · exact hInv
  · simp only [free_impl]
    rcases hg : getBlock st (subW p cfg.HB) with _ | b
    · simp only [hg]
      exact hInv
    · simp only [hg]
      have hInv1 : LedgerInv cfg (setBlock st { b with free := true }) :=
        ledgerInv_setBlock_meta cfg st (subW p cfg.HB) b _ hInv hg rfl rfl rfl
      by_cases hfh : (setBlock st { b with free := true }).free_head = none
      · rw [if_pos hfh]
        exact ledgerInv_ghost cfg _ _ _ _ hInv1
      · rw [if_neg hfh]
        have hgb2 : getBlock (setBlock st { b with free := true }) (subW p cfg.HB)
            = some { b with free := true } := by
          have hba : b.addr = subW p cfg.HB := getBlock_addr st _ b hg
          rw [← hba]
          exact getBlock_setBlock_self st { b with free := true }
        exact ledgerInv_ghost cfg _ _ _ _
          (ledgerInv_setBlock_meta cfg _ (subW p cfg.HB) _ _ hInv1 hgb2 rfl rfl rfl)

theorem ledgerInv_calloc (cfg : AllocCfg) (st : AllocState) (nmemb size : Nat) (name : String)
    (fuel : Nat) (os : Option Nat) (hsane : SaneCfg cfg) (hscr : cfg.scribble ≠ 1)
    (hInv : LedgerInv cfg st) (hos : OsOk cfg st (nmemb * size % sizeW) os) :
    LedgerInv cfg (calloc_impl cfg st nmemb size name fuel os).st :=
  ledgerInv_malloc cfg st (nmemb * size % sizeW) name fuel os hsane hscr hInv hos

theorem ledgerInv_realloc (cfg : AllocCfg) (st : AllocState) (ptr : Option Nat) (size : Nat)
    (name : String) (fuel : Nat) (os : Option Nat) (hsane : SaneCfg cfg)
    (hscr : cfg.scribble ≠ 1) (hInv : LedgerInv cfg st) (h : ReallocOk cfg st ptr size os) :
    LedgerInv cfg (realloc_impl cfg st ptr size name fuel os).st := by
  rcases ptr with _ | p
  · exact ledgerInv_malloc cfg st size name fuel os hsane hscr hInv h
  · simp only [realloc_impl]
    by_cases hz : size = 0
    · rw [if_pos hz]
      exact ledgerInv_free cfg st (some p) hInv
    · rw [if_neg hz]
      exact hInv

theorem ledgerInv_step (cfg : AllocCfg) {st st' : AllocState} (hsane : SaneCfg cfg)
    (hscr : cfg.scribble ≠ 1) (hs : Step cfg st st') (hInv : LedgerInv cfg st) :
    LedgerInv cfg st' := by
  cases hs with
  | malloc size name fuel os hos =>
    exact ledgerInv_malloc cfg st size name fuel os hsane hscr hInv hos
  | free ptr hp => exact ledgerInv_free cfg st ptr hInv
  | calloc nmemb size name fuel os hos =>
    exact ledgerInv_calloc cfg st nmemb size name fuel os hsane hscr hInv hos
  | realloc ptr size name fuel os h =>
    exact ledgerInv_realloc cfg st ptr size name fuel os hsane hscr hInv h

theorem ledgerInv_init (cfg : AllocCfg) : LedgerInv cfg initState := by
  refine ⟨?_, ?_, ?_, ?_, ?_, ?_⟩ <;> simp [initState, regionBlocks]

theorem ledgerInv_reachable (cfg : AllocCfg) (st : AllocState) (hsane : SaneCfg cfg)
    (hscr : cfg.scribble ≠ 1) (hr : Reachable cfg st) : LedgerInv cfg st := by
  induction hr with
  | init => exact ledgerInv_init cfg
  | step h hs ih => exact ledgerInv_step cfg hsane hscr hs ih

/-- **C7** (amended): in every state reachable from process start by sequences
of `allocate` (`malloc_impl`), `release` (`free_impl`), `bulk_allocate`
(`calloc_impl`) and `resize` (`realloc_impl`) calls — under a sane
configuration, with OS answers and pointer arguments valid, and with the debug
fill flag off — the recorded block lengths within each tracked region sum to
that region's usable length (its mapped size minus the region header), the
blocks of one region occupy pairwise disjoint address ranges, and every
recorded block length includes (is at least) the block-header size.  The
debug-fill restriction is forced: with `ALLOCATOR_SCRIBBLE=1` the sentinel
`memset` overwrites tracked header bytes and a single `allocate` already
breaks the invariant (see `scribble_corrupts_region_ledger`). -/
theorem region_blocks_tile_usable_length (cfg : AllocCfg) (st : AllocState)
    (hsane : SaneCfg cfg) (hscr : cfg.scribble ≠ 1) (hr : Reachable cfg st) :
    (∀ r ∈ st.regions,
      sumSizes (regionBlocks st r.base) = r.map_sz - cfg.HR ∧
      (regionBlocks st r.base).Pairwise blockDisj) ∧
    ∀ b ∈ st.blocks, cfg.HB ≤ b.size := by
  have hInv := ledgerInv_reachable cfg st hsane hscr hr
  refine ⟨fun r hrm => ?_, hInv.szlb⟩
  have hc := hInv.covers r hrm
  refine ⟨?_, hc.2.1⟩
  have hsum := hc.2.2
  rw [regionHi, regionLo] at hsum
  omega

/-- Witness for `region_blocks_tile_usable_length`: the default configuration
is sane with the debug fill off, the state after `allocate(100, "x");
release(ptr)` is reachable, and the tiling properties hold there. -/
theorem region_blocks_tile_usable_length_witness :
    SaneCfg exCfg ∧ exCfg.scribble ≠ 1 ∧ Reachable exCfg scenSt ∧
    ((∀ r ∈ scenSt.regions,
        sumSizes (regionBlocks scenSt r.base) = r.map_sz - exCfg.HR ∧
        (regionBlocks scenSt r.base).Pairwise blockDisj) ∧
      ∀ b ∈ scenSt.blocks, exCfg.HB ≤ b.size) := by
  have hsane : SaneCfg exCfg := by
    unfold SaneCfg
    decide
  have hos : OsOk exCfg initState 100 (some 4096) := by
    show 0 < mapSz exCfg 100 ∧ 4096 % exCfg.page = 0 ∧ 0 < 4096 ∧
      4096 + mapSz exCfg 100 + exCfg.HB ≤ sizeW ∧
      ∀ r ∈ initState.regions, 4096 + mapSz exCfg 100 ≤ r.base ∨ r.base + r.map_sz ≤ 4096
    refine ⟨by decide, by decide, by decide, by decide, ?_⟩
    intro r hrm
    exact absurd hrm (List.not_mem_nil r)
  have hp : PtrOk exCfg scen1.st scen1.ret := by
    rw [show scen1.ret = some 4256 from rfl]
    show (getBlock scen1.st (subW 4256 exCfg.HB)).isSome = true
    decide
  have hr : Reachable exCfg scenSt :=
    Reachable.step
      (Reachable.step (Reachable.init)
        (Step.malloc initState 100 "x" 50 (some 4096) hos))
      (Step.free scen1.st scen1.ret hp)
  exact ⟨hsane, by decide, hr,
    region_blocks_tile_usable_length exCfg scenSt hsane (by decide) hr⟩

/-- C7 counterexample to the unrestricted claim: with the debug fill flag on
(`ALLOCATOR_SCRIBBLE=1`), a single `allocate(100, "x")` is enough.  Its miss
path maps the region at 4096, places the served 124-byte block header at 4176
and the 3948-byte tail header at 4300, and then runs
`memset((void *) block + 1, 0xAA, aligned_sz)` = `memset(4177, 0xAA, 128)`:
the fill overwrites 79 of the served header's 80 bytes — its recorded length
becomes `0xAAAAAAAAAAAAAAAA` — and the first five bytes of the tail header,
so in the resulting reachable state the region's block lengths no longer sum
to its usable length `4072`. -/
theorem scribble_corrupts_region_ledger :
    SaneCfg exCfgScribble ∧
    Reachable exCfgScribble (malloc_impl exCfgScribble initState 100 "x" 50 (some 4096)).st ∧
    ¬ ((∀ r ∈ (malloc_impl exCfgScribble initState 100 "x" 50 (some 4096)).st.regions,
          sumSizes
              (regionBlocks (malloc_impl exCfgScribble initState 100 "x" 50 (some 4096)).st
                r.base)
            = r.map_sz - exCfgScribble.HR ∧
          (regionBlocks (malloc_impl exCfgScribble initState 100 "x" 50 (some 4096)).st
            r.base).Pairwise blockDisj) ∧
        ∀ b ∈ (malloc_impl exCfgScribble initState 100 "x" 50 (some 4096)).st.blocks,
          exCfgScribble.HB ≤ b.size) := by
  have hos : OsOk exCfgScribble initState 100 (some 4096) := by
    show 0 < mapSz exCfgScribble 100 ∧ 4096 % exCfgScribble.page = 0 ∧ 0 < 4096 ∧
      4096 + mapSz exCfgScribble 100 + exCfgScribble.HB ≤ sizeW ∧
      ∀ r ∈ initState.regions,
        4096 + mapSz exCfgScribble 100 ≤ r.base ∨ r.base + r.map_sz ≤ 4096
    refine ⟨by decide, by decide, by decide, by decide, ?_⟩
    intro r hrm
    exact absurd hrm (List.not_mem_nil r)
  refine ⟨by unfold SaneCfg; decide, ?_, ?_⟩
  · exact Reachable.step Reachable.init (Step.malloc initState 100 "x" 50 (some 4096) hos)
  · rintro ⟨h1, _⟩
    have hm : ({ base := 4096, map_sz := 4096, region_number := 0 } : MemRegion)
        ∈ (malloc_impl exCfgScribble initState 100 "x" 50 (some 4096)).st.regions := by decide
    have hsum := (h1 _ hm).1
    exact absurd hsum (by decide)
